import Mathlib

/-!
Verification development for the pomdps-reveal core: the product POMDP
construction (`product.py`), the belief-support MDP construction
(`belief_support_MDP.py`), and the almost-sure parity solver
(`almost_sure_parity_MDP.py`).  Python code is shallowly embedded as
executable Lean definitions; loops that the source runs until a dynamic
condition holds are embedded with explicit fuel, returning `Option`.
-/

namespace PomdpsReveal

/-! ## Product construction (`product.py`) -/

/-- `get_product_state_index(env, s, q) = q * len(env.states) + s`. -/
def get_product_state_index (numEnvStates s q : Nat) : Nat :=
  q * numEnvStates + s

/-- The POMDP component recovered in `get_state_name`: `idx % len(env.states)`. -/
def decode_env_idx (numEnvStates idx : Nat) : Nat := idx % numEnvStates

/-- The automaton component recovered in `get_state_name`: `idx // len(env.states)`. -/
def decode_aut_idx (numEnvStates idx : Nat) : Nat := idx / numEnvStates

/-- The product state list built in `init_product`:
`[f"{s}-{i}" for i, s in product(range(aut.num_states()), env.states)]`. -/
def init_product_states (numAutStates : Nat) (envStates : List String) : List String :=
  (List.range numAutStates).flatMap (fun i => envStates.map (fun s => s ++ "-" ++ toString i))

/-- One outgoing transition of the spot automaton at a given state: the
guard formula (as printed by `spot.bdd_format_formula`) and the destination
state index. -/
structure AutEdge where
  cond : String
  dst : Nat
deriving DecidableEq, Repr

/-- The features of the spot automaton used by `product.py` and
`belief_support_MDP.py`: `num_states()`, `acc().num_sets()`,
`list(state_acc_sets(q).sets())`, `get_init_state_number()`, `out(q)`. -/
structure Automaton where
  numStates : Nat
  accNumSets : Nat
  stateAccSets : Nat → List Nat
  initState : Nat
  out : Nat → List AutEdge

/-- `get_next_aut_state_by_observation`: computes the observation formula,
scans the outgoing automaton transitions in order and returns the first
destination whose guard equals the formula; raises (here: `Except.error`)
when no transition matches. -/
def get_next_aut_state_by_observation (aut : Automaton)
    (obsFormula : Nat → String) (obs_idx state_aut_idx : Nat) : Except String Nat :=
  let formula := obsFormula obs_idx
  match (aut.out state_aut_idx).find? (fun t => t.cond == formula) with
  | some t => Except.ok t.dst
  | none =>
      Except.error
        ("No matching transition found for observation " ++ toString obs_idx ++
          " (formula: " ++ formula ++ ") in automaton state " ++ toString state_aut_idx)

/-- The final value `prioinv[(s,q)]` produced by `set_priorities` in
`product.py` for a product state with automaton component `q`: when the
acceptance-set list of `q` is empty the state is given priority `1`;
otherwise `addPriority` is called once per acceptance set, each call
overwriting `prioinv`, so the final value is the last acceptance set plus
the `+2` offset for single-acceptance automata. -/
def set_priorities_prioinv (aut : Automaton) (q : Nat) : Nat :=
  let accSets := aut.stateAccSets q
  if accSets.isEmpty then 1
  else accSets.foldl (fun _ p => p + (if aut.accNumSets == 1 then 2 else 0)) 0

/-- The per-element priority computed inside
`BeliefSuppMDP._set_priorities_product` for a belief element with automaton
component `q`. -/
def belief_elem_prio (aut : Automaton) (q : Nat) : Nat :=
  let accSets := aut.stateAccSets q
  if accSets.isEmpty then (if aut.accNumSets == 1 then 1 else 0)
  else accSets.foldl max 0 + (if aut.accNumSets == 1 then 2 else 0)

/-- The priority `self.prio[i]` assigned by
`BeliefSuppMDP._set_priorities_product` to a belief-support state `bs`:
the maximum (starting from `0`) of the per-element priorities. -/
def set_priorities_product_prio (aut : Automaton) (bs : List (Nat × Nat)) : Nat :=
  bs.foldl (fun m sq => max m (belief_elem_prio aut sq.2)) 0

/-- The maximum over the elements of a belief of the priority the product
construction assigns to the corresponding product state (the right-hand
side of claim C1). -/
def max_product_prio (aut : Automaton) (bs : List (Nat × Nat)) : Nat :=
  (bs.map (fun sq => set_priorities_prioinv aut sq.2)).foldl max 0

/-- Concrete automaton for claim C1's counterexample: two acceptance sets
(`K = 0`, not single-acceptance) and a state whose acceptance-set list is
empty. -/
def autC1 : Automaton :=
  { numStates := 1, accNumSets := 2, stateAccSets := fun _ => [],
    initState := 0, out := fun _ => [] }

/-- Concrete single-acceptance automaton for claim C1's witness. -/
def autC1w : Automaton :=
  { numStates := 2, accNumSets := 1,
    stateAccSets := fun q => if q = 0 then [] else [0],
    initState := 0, out := fun _ => [] }

/-- Concrete automaton for claim C9's witness: one outgoing guard `"a"`. -/
def autC9 : Automaton :=
  { numStates := 2, accNumSets := 1, stateAccSets := fun _ => [],
    initState := 0, out := fun _ => [⟨"a", 1⟩] }

/-! ## Belief-support MDP construction (`belief_support_MDP.py`) -/

/-- A belief support: the canonical sorted tuple of `(base_state, aut_state)`
pairs. -/
abbrev Belief := List (Nat × Nat)

/-- Lexicographic order on belief elements, matching Python tuple
comparison. -/
def pairRel (x y : Nat × Nat) : Prop := x.1 < y.1 ∨ (x.1 = y.1 ∧ x.2 ≤ y.2)

instance : DecidableRel pairRel := fun x y =>
  inferInstanceAs (Decidable (x.1 < y.1 ∨ (x.1 = y.1 ∧ x.2 ≤ y.2)))

/-- `tuple(sorted(list(set(...))))`: canonical form of a collected set of
pairs. -/
def canonPairs (l : List (Nat × Nat)) : List (Nat × Nat) :=
  List.insertionSort pairRel l.dedup

/-- The data of a `ProductPOMDP` consumed by
`BeliefSuppMDP._build_belief_support_mdp_product`: the number of base POMDP
states, the action count, the product transition dicts
`transitions[src][a] : (dst, obs) -> prob` (an absent key is the empty
list), the start distribution of the base POMDP, and the initial automaton
state. -/
structure ProdPOMDP where
  numBaseStates : Nat
  numActions : Nat
  transitions : Nat → Nat → List ((Nat × Nat) × ℚ)
  start : List (Nat × ℚ)
  autInit : Nat

/-- The initial belief support:
`tuple(sorted([(s, aut_init) for s in start if start[s] > 0]))`. -/
def initialBelief (P : ProdPOMDP) : Belief :=
  canonPairs ((P.start.filter (fun kv => decide (0 < kv.2))).map
    (fun kv => (kv.1, P.autInit)))

/-- `possible_succ_beliefs[o]` for a source belief `bs` and action `a`: the
set of decoded pairs `(dst % |S|, dst // |S|)` over all `(s, q)` in `bs`
and all product transitions `((dst, o), prob)` with `prob > 0`, as a
canonical sorted tuple. -/
def succPairsForObs (P : ProdPOMDP) (bs : Belief) (a o : Nat) : List (Nat × Nat) :=
  canonPairs (bs.flatMap (fun sq =>
    (P.transitions (sq.2 * P.numBaseStates + sq.1) a).filterMap (fun t =>
      if 0 < t.2 ∧ t.1.2 = o then
        some (t.1.1 % P.numBaseStates, t.1.1 / P.numBaseStates)
      else none)))

/-- `sorted(possible_succ_beliefs.keys())`: the observations with at least
one positive-probability transition from `bs` under `a`, in ascending
order. -/
def obsList (P : ProdPOMDP) (bs : Belief) (a : Nat) : List Nat :=
  List.insertionSort (· ≤ ·) ((bs.flatMap (fun sq =>
    (P.transitions (sq.2 * P.numBaseStates + sq.1) a).filterMap (fun t =>
      if 0 < t.2 then some t.1.2 else none))).dedup)

/-- Interning of one successor belief: an empty belief is skipped; a known
belief reuses its index from `statesinv`; a new belief is appended with the
next index; the index is appended to the successor row unless already
present. -/
def addSucc (states : List Belief) (row : List Nat) (nb : Belief) :
    List Belief × List Nat :=
  if nb = [] then (states, row)
  else
    match states.findIdx? (fun b => decide (b = nb)) with
    | some j => (states, if j ∈ row then row else row ++ [j])
    | none => (states ++ [nb],
        if states.length ∈ row then row else row ++ [states.length])

/-- Processing of one action at a source belief: fold the interning step
over the sorted observations, then sort the successor row
(`self.trans[current][act].sort()`). -/
def processAction (P : ProdPOMDP) (bs : Belief) (a : Nat) (states : List Belief) :
    List Belief × List Nat :=
  let res := (obsList P bs a).foldl
    (fun acc o => addSucc acc.1 acc.2 (succPairsForObs P bs a o)) (states, [])
  (res.1, List.insertionSort (· ≤ ·) res.2)

/-- Processing of one popped belief: one successor row per action, in
action order. -/
def processState (P : ProdPOMDP) (bs : Belief) (states : List Belief) :
    List Belief × List (List Nat) :=
  (List.range P.numActions).foldl
    (fun acc a =>
      let r := processAction P bs a acc.1
      (r.1, acc.2 ++ [r.2]))
    (states, [])

/-- The constructed belief-support MDP: the interned state list and, per
state index, the per-action successor rows. -/
structure BSResult where
  states : List Belief
  trans : List (List (List Nat))
deriving DecidableEq, Repr

/-- The forward-exploration loop.  The FIFO queue of
`_build_belief_support_mdp_product` pops beliefs in discovery order, which
is exactly index order, so the loop processes index `i` while `i` is below
the current number of discovered states.  `fuel` bounds the number of
iterations; `none` means the fuel ran out. -/
def buildLoop (P : ProdPOMDP) :
    Nat → List Belief → List (List (List Nat)) → Nat → Option BSResult
  | 0, _, _, _ => none
  | fuel + 1, states, tr, i =>
    if i < states.length then
      let r := processState P (states.getD i []) states
      buildLoop P fuel r.1 (tr ++ [r.2]) (i + 1)
    else some ⟨states, tr⟩

/-- `BeliefSuppMDP._build_belief_support_mdp_product`. -/
def buildBeliefSuppMDP (P : ProdPOMDP) (fuel : Nat) : Option BSResult :=
  buildLoop P fuel [initialBelief P] [] 0

/-- "Some state in `B` has outgoing transition mass under `a`": the claim
C3 condition for the successor set to be non-empty. -/
def hasOutgoing (P : ProdPOMDP) (bs : Belief) (a : Nat) : Prop :=
  ∃ sq ∈ bs, ∃ t ∈ P.transitions (sq.2 * P.numBaseStates + sq.1) a, 0 < t.2

instance (P : ProdPOMDP) (bs : Belief) (a : Nat) : Decidable (hasOutgoing P bs a) :=
  inferInstanceAs (Decidable (∃ sq ∈ bs,
    ∃ t ∈ P.transitions (sq.2 * P.numBaseStates + sq.1) a, 0 < t.2))

/-! ## Solver scratch structures (`ParityMDPSolver.resetPreAct`) -/

/-- The predecessor sets built by `resetPreAct`: `pre[dst]` is the set of
pairs `(i, a)` with `dst ∈ trans[i][a]`, here in `(i, a)` order. -/
def resetPre (numStates numActions : Nat) (trans : Nat → Nat → List Nat)
    (dst : Nat) : List (Nat × Nat) :=
  ((List.range numStates).flatMap
    (fun i => (List.range numActions).map (fun a => (i, a)))).filter
    (fun ia => decide (dst ∈ trans ia.1 ia.2))

/-- The action counts built by `resetPreAct`: `act[i] = len(self.actions)`
for every state `i`. -/
def resetAct (numStates numActions : Nat) : List Nat :=
  List.replicate numStates numActions

/-- Concrete product for claims C3's counterexample: one base state, one
automaton state, two actions; action `0` self-loops emitting observation
`0`, action `1` has no transitions. -/
def prodC3 : ProdPOMDP :=
  { numBaseStates := 1, numActions := 2,
    transitions := fun src a => if src = 0 ∧ a = 0 then [((0, 0), 1)] else [],
    start := [(0, 1)], autInit := 0 }

/-- Concrete product for claim C7's counterexample: a single self-loop
transition that emits observation `0` or `1` with probability `1/2` each,
reaching the same product state. -/
def prodC7 : ProdPOMDP :=
  { numBaseStates := 1, numActions := 1,
    transitions := fun src a =>
      if src = 0 ∧ a = 0 then [((0, 0), mkRat 1 2), ((0, 1), mkRat 1 2)] else [],
    start := [(0, 1)], autInit := 0 }

/-! ## Parity MDP solver (`almost_sure_parity_MDP.py`) -/

/-- The MDP data consumed by `ParityMDPSolver`: state and action counts,
the successor lists `trans[i][a]`, and the priority map `prio[i]`. -/
structure SolverMDP where
  numStates : Nat
  numActions : Nat
  trans : Nat → Nat → List Nat
  prio : Nat → Nat

/-- Insertion of an element into a sorted duplicate-free list — the
embedding of adding an element to a Python set of naturals, kept in
canonical ascending order. -/
def insertSortedNat (x : Nat) : List Nat → List Nat
  | [] => [x]
  | y :: ys => if x < y then x :: y :: ys else if x = y then y :: ys
      else y :: insertSortedNat x ys

/-! ### Tarjan SCC (`ParityMDPSolver.tarjanSCCs`) -/

/-- The mutable state of the recursive Tarjan traversal: the running index
counter, `stateIdx`, `stateLow`, the explicit stack `S` (head = top),
`onStack`, and the accumulated `sccDecomp`. -/
structure TarjanSt where
  idx : Nat
  stIdx : Nat → Option Nat
  stLow : Nat → Nat
  stack : List Nat
  onStack : Nat → Bool
  sccs : List (List Nat)

def initTarjanSt : TarjanSt :=
  { idx := 0, stIdx := fun _ => none, stLow := fun _ => 0, stack := [],
    onStack := fun _ => false, sccs := [] }

/-- The entry bookkeeping of `_strongConnect(q)`: assign index and lowlink,
bump the counter, push `q`. -/
def tMark (q : Nat) (σ : TarjanSt) : TarjanSt :=
  { idx := σ.idx + 1,
    stIdx := fun w => if w = q then some σ.idx else σ.stIdx w,
    stLow := fun w => if w = q then σ.idx else σ.stLow w,
    stack := q :: σ.stack,
    onStack := fun w => if w = q then true else σ.onStack w,
    sccs := σ.sccs }

/-- The successor set of `q` in the restricted graph: the union over the
allowed actions of the successors that lie in `states`, iterated in sorted
order. -/
def tSuccs (M : SolverMDP) (states : List Nat) (actions : Nat → List Nat)
    (q : Nat) : List Nat :=
  List.insertionSort (· ≤ ·)
    (((actions q).flatMap
      (fun a => (M.trans q a).filter (fun d => decide (d ∈ states)))).dedup)

/-- The root pop loop of `_strongConnect`: pop stack entries into an SCC
until `q` itself is popped. -/
def popLoop (q : Nat) :
    List Nat → (Nat → Bool) → List Nat → List Nat × (Nat → Bool) × List Nat
  | [], onStack, scc => ([], onStack, scc)
  | w :: rest, onStack, scc =>
    if w = q then (rest, fun x => if x = w then false else onStack x, scc ++ [w])
    else popLoop q rest (fun x => if x = w then false else onStack x) (scc ++ [w])

/-- The assignment `stateLow[q] = v`. -/
def updLowQ (q v : Nat) (σ : TarjanSt) : TarjanSt :=
  { σ with stLow := fun w => if w = q then v else σ.stLow w }

/-- The loop of `_strongConnect` over the successors of `q`: recurse into
unvisited successors and update `stateLow[q]`; `g` is the recursive visit
at the next-smaller fuel. -/
def tVisitListAux (g : Nat → TarjanSt → Option TarjanSt) (q : Nat) :
    List Nat → TarjanSt → Option TarjanSt
  | [], σ => some σ
  | dst :: rest, σ =>
    match σ.stIdx dst with
    | none =>
      (g dst σ).bind (fun σ2 =>
        tVisitListAux g q rest (updLowQ q (min (σ2.stLow dst) (σ2.stLow q)) σ2))
    | some d =>
      if σ.onStack dst then
        tVisitListAux g q rest (updLowQ q (min d (σ.stLow q)) σ)
      else tVisitListAux g q rest σ

/-- `_strongConnect(q)`, with fuel bounding the recursion depth. -/
def tVisit (M : SolverMDP) (states : List Nat) (actions : Nat → List Nat) :
    Nat → Nat → TarjanSt → Option TarjanSt
  | 0, _, _ => none
  | fuel + 1, q, σ =>
    (tVisitListAux (tVisit M states actions fuel) q
        (tSuccs M states actions q) (tMark q σ)).bind (fun σ2 =>
      if σ2.stIdx q = some (σ2.stLow q) then
        some { σ2 with
          stack := (popLoop q σ2.stack σ2.onStack []).1,
          onStack := (popLoop q σ2.stack σ2.onStack []).2.1,
          sccs := σ2.sccs ++ [(popLoop q σ2.stack σ2.onStack []).2.2] }
      else some σ2)

/-- The top-level loop of `tarjanSCCs`: start `_strongConnect` from every
still-unvisited state. -/
def tTopLoop (M : SolverMDP) (states : List Nat) (actions : Nat → List Nat)
    (fuel : Nat) : List Nat → TarjanSt → Option TarjanSt
  | [], σ => some σ
  | s :: rest, σ =>
    match σ.stIdx s with
    | none =>
      (tVisit M states actions fuel s σ).bind (fun σ2 =>
        tTopLoop M states actions fuel rest σ2)
    | some _ => tTopLoop M states actions fuel rest σ

/-- `ParityMDPSolver.tarjanSCCs(states, actions)`; the empty input set
violates the `assert len(states) > 0` precondition (`none`). -/
def tarjanSCCs (M : SolverMDP) (fuel : Nat) (states : List Nat)
    (actions : Nat → List Nat) : Option (List (List Nat)) :=
  if states = [] then none
  else (tTopLoop M states actions fuel states initTarjanSt).bind
    (fun σ => some σ.sccs)

/-! ### Good MECs (`ParityMDPSolver.goodMECs`) -/

/-- For each SCC `C` and each of its states `s`, remove from `act[s]` every
action with a successor outside `C`; states whose action set becomes empty
are collected for removal. -/
def sccFilterStates (M : SolverMDP) (acc : List (List Nat) × List Nat)
    (C : List Nat) : List (List Nat) × List Nat :=
  C.foldl (fun acc2 s =>
    let acts2 := (acc2.1.getD s []).filter
      (fun a => (M.trans s a).all (fun d => decide (d ∈ C)))
    (acc2.1.set s acts2,
      if acts2 = [] then insertSortedNat s acc2.2 else acc2.2)) acc

/-- The state-removal loop of `goodMECs`: pop a state `s`, discard it from
the candidate MEC, and for each predecessor pair `(t, a)` of `s` with `t`
in the last considered SCC, discard `a` from `act[t]`, cascading when
`act[t]` empties.  (The membership test against the *last* SCC mirrors the
Python code, whose loop variable `C` retains its final value.) -/
def removalLoop (pre : Nat → List (Nat × Nat)) (lastC : List Nat) :
    Nat → List Nat → List Nat → List (List Nat) →
    Option (List Nat × List (List Nat))
  | 0, _, _, _ => none
  | _ + 1, [], mec, act => some (mec, act)
  | fuel + 1, s :: rest, mec, act =>
    let mec2 := mec.erase s
    let st := (pre s).foldl (fun (acc : List (List Nat) × List Nat) ta =>
        if ta.1 ∈ lastC then
          let acts2 := (acc.1.getD ta.1 []).erase ta.2
          if acts2 = [] ∧ ta.1 ∈ mec2 then
            (acc.1.set ta.1 acts2, insertSortedNat ta.1 acc.2)
          else (acc.1.set ta.1 acts2, acc.2)
        else acc) (act, rest)
    removalLoop pre lastC fuel st.2 mec2 st.1

/-- One candidate MEC refined: split into SCCs, filter exiting actions,
cascade state removals. -/
def refineMec (M : SolverMDP) (pre : Nat → List (Nat × Nat)) (fuel : Nat)
    (act : List (List Nat)) (mec : List Nat) :
    Option (List Nat × List (List Nat) × List (List Nat)) :=
  (tarjanSCCs M fuel mec (fun q => act.getD q [])).bind (fun SCCs =>
    ((removalLoop pre (SCCs.getLastD []) fuel
        (SCCs.foldl (sccFilterStates M) (act, [])).2 mec
        (SCCs.foldl (sccFilterStates M) (act, [])).1).bind (fun r =>
      some (r.1, r.2, SCCs))))

/-- One SCC considered for the refined candidate list: `res = C ∩ mec`,
skipped when empty or (for nonzero priority) when its top priority is
below `p`. -/
def mecResultStep (M : SolverMDP) (p : Nat) (mec2 : List Nat)
    (acc : List (List Nat)) (C : List Nat) : List (List Nat) :=
  if mec2.filter (fun s => decide (s ∈ C)) = [] then acc
  else if p ≠ 0 ∧ (mec2.filter (fun s => decide (s ∈ C))).foldl
      (fun m o => max m (M.prio o)) 0 < p then acc
  else acc ++ [mec2.filter (fun s => decide (s ∈ C))]

/-- The surviving split candidates appended back to `newMECs`. -/
def mecResults (M : SolverMDP) (p : Nat) (SCCs : List (List Nat))
    (mec2 : List Nat) : List (List Nat) :=
  SCCs.foldl (mecResultStep M p mec2) []

/-- One refinement pass over the current list of candidate MECs. -/
def refineList (M : SolverMDP) (pre : Nat → List (Nat × Nat)) (p fuel : Nat) :
    List (List Nat) → List (List Nat) → List (List Nat) →
    Option (List (List Nat) × List (List Nat))
  | [], newMECs, act => some (newMECs, act)
  | mec :: rest, newMECs, act =>
    (refineMec M pre fuel act mec).bind (fun r =>
      refineList M pre p fuel rest (newMECs ++ mecResults M p r.2.2 r.1) r.2.1)

/-- The `while (MECs != newMECs) or (act != new_act)` refinement loop. -/
def mecLoop (M : SolverMDP) (pre : Nat → List (Nat × Nat)) (p tfuel : Nat) :
    Nat → List (List Nat) → List (List Nat) → List (List Nat) →
    List (List Nat) → Option (List (List Nat) × List (List Nat))
  | 0, _, _, _, _ => none
  | wfuel + 1, MECs, newMECs, act, new_act =>
    if MECs = newMECs ∧ act = new_act then some (MECs, act)
    else
      (refineList M pre p tfuel newMECs [] act).bind (fun r =>
        mecLoop M pre p tfuel wfuel newMECs r.1 r.2 act)

/-- The restriction of the state space to priorities at most `p`. -/
def prioRestriction (M : SolverMDP) (p : Nat) : List Nat :=
  (List.range M.numStates).filter (fun i => decide (M.prio i ≤ p))

/-- "There is at least one state of the given priority" in the
restriction. -/
def hasExactPriority (M : SolverMDP) (p : Nat) : Bool :=
  (prioRestriction M p).any (fun i => M.prio i == p)

/-- The non-degenerate body of `goodMECs`: run the refinement loop from
the priority restriction with all actions enabled, and return the final
MECs with the action map as a per-state dictionary. -/
def runMecLoop (M : SolverMDP) (fuel p : Nat) :
    Option (List (List Nat) × List (Nat × List Nat)) :=
  (mecLoop M (resetPre M.numStates M.numActions M.trans) p fuel fuel []
      [prioRestriction M p]
      (List.replicate M.numStates (List.range M.numActions))
      (List.replicate M.numStates (List.range M.numActions))).bind (fun r =>
    some (r.1, (List.range M.numStates).map (fun i => (i, r.2.getD i []))))

/-- `ParityMDPSolver.goodMECs(priority)`: odd priorities violate the
assertion; when no state of priority exactly `p` exists the function
recurses to `p - 2`, returning `([], {})` at `p = 0`. -/
def goodMECs (M : SolverMDP) (fuel : Nat) :
    Nat → Option (List (List Nat) × List (Nat × List Nat))
  | 0 => if hasExactPriority M 0 then runMecLoop M fuel 0 else some ([], [])
  | 1 => none
  | p + 2 =>
    if (p + 2) % 2 ≠ 0 then none
    else if hasExactPriority M (p + 2) then runMecLoop M fuel (p + 2)
    else goodMECs M fuel p

/-! ### Almost-sure reachability (`ParityMDPSolver.almostSureReach`) -/

/-- The reverse-BFS worklist loop of `cannotReach`: pop a state, enqueue
its unvisited predecessors through non-forbidden pairs, and mark it
visited. -/
def cannotReachLoop (pre : Nat → List (Nat × Nat)) (forbidden : List (Nat × Nat)) :
    Nat → List Nat → List Nat → Option (List Nat)
  | 0, _, _ => none
  | _ + 1, [], visited => some visited
  | fuel + 1, q :: rest, visited =>
    let adds := (pre q).filterMap (fun ia =>
      if ia ∈ forbidden then none
      else if ia.1 ∈ visited then none
      else some ia.1)
    cannotReachLoop pre forbidden fuel
      (adds.foldl (fun tv x => insertSortedNat x tv) rest)
      (insertSortedNat q visited)

/-- `ParityMDPSolver.cannotReach(targets, forbidden)`: the states not
backward-reachable from the targets through non-forbidden pairs. -/
def cannotReach (numStates : Nat) (pre : Nat → List (Nat × Nat)) (fuel : Nat)
    (targets : List Nat) (forbidden : List (Nat × Nat)) : Option (List Nat) :=
  (cannotReachLoop pre forbidden fuel
      (targets.foldl (fun tv x => insertSortedNat x tv) []) []).bind (fun visited =>
    some ((List.range numStates).filter (fun i => decide (i ∉ visited))))

/-- One predecessor pair processed in the inner removal loop of
`almostSureReach`; the accumulator is `(R, U, act, removed_sa_pairs)`. -/
def asrPreStep (targets : List Nat)
    (acc : List Nat × List Nat × List Nat × List (Nat × Nat)) (ta : Nat × Nat) :
    List Nat × List Nat × List Nat × List (Nat × Nat) :=
  if ta.1 ∈ acc.2.1 then acc
  else
    let act2 := if ta ∈ acc.2.2.2 then acc.2.2.1
      else acc.2.2.1.set ta.1 ((acc.2.2.1.getD ta.1 0) - 1)
    let rp2 := if ta ∈ acc.2.2.2 then acc.2.2.2 else acc.2.2.2 ++ [ta]
    if act2.getD ta.1 0 = 0 ∧ ta.1 ∉ targets then
      (insertSortedNat ta.1 acc.1, insertSortedNat ta.1 acc.2.1, act2, rp2)
    else (acc.1, acc.2.1, act2, rp2)

/-- The inner `while len(R) > 0` loop of `almostSureReach`: pop `u`,
process its predecessor pairs, delete `pre[u]`, append `u` to `removed`.
Returns `(U, pre, act, removed, removed_sa_pairs)`. -/
def asrInner (targets : List Nat) :
    Nat → List Nat → List Nat → (Nat → List (Nat × Nat)) → List Nat →
    List Nat → List (Nat × Nat) →
    Option (List Nat × (Nat → List (Nat × Nat)) × List Nat × List Nat ×
      List (Nat × Nat))
  | 0, _, _, _, _, _, _ => none
  | _ + 1, [], U, pre, act, removed, rp => some (U, pre, act, removed, rp)
  | fuel + 1, u :: rest, U, pre, act, removed, rp =>
    let st := (pre u).foldl (asrPreStep targets) (rest, U, act, rp)
    asrInner targets fuel st.1 st.2.1 (fun w => if w = u then [] else pre w)
      st.2.2.1 (removed ++ [u]) st.2.2.2

/-- The outer `while True` loop of `almostSureReach`: run the inner
removal loop on `R = set(U)`, recompute `cannotReach` with the removed
pairs forbidden, and stop when no new state turns up. -/
def asrOuter (numStates : Nat) (targets : List Nat) :
    Nat → List Nat → (Nat → List (Nat × Nat)) → List Nat → List Nat →
    List (Nat × Nat) → Option (List Nat)
  | 0, _, _, _, _, _ => none
  | fuel + 1, U, pre, act, removed, rp =>
    (asrInner targets fuel U U pre act removed rp).bind (fun st =>
      (cannotReach numStates st.2.1 fuel targets st.2.2.2.2).bind (fun cr =>
        if cr.filter (fun i => decide (i ∉ st.1)) = [] then some st.2.2.2.1
        else asrOuter numStates targets fuel
          (cr.filter (fun i => decide (i ∉ st.1))) st.2.1 st.2.2.1 st.2.2.2.1
          st.2.2.2.2))

/-- `ParityMDPSolver.almostSureReach(targets)`: the states not removed by
the counting fixed point. -/
def almostSureReach (M : SolverMDP) (fuel : Nat) (targets : List Nat) :
    Option (List Nat) :=
  (cannotReach M.numStates (resetPre M.numStates M.numActions M.trans) fuel
      targets []).bind (fun U0 =>
    (asrOuter M.numStates targets fuel U0
        (resetPre M.numStates M.numActions M.trans)
        (List.replicate M.numStates M.numActions) [] []).bind (fun removed =>
      some ((List.range M.numStates).filter (fun i => decide (i ∉ removed)))))

/-! ### Almost-sure parity winning (`ParityMDPSolver.almostSureWin`) -/

/-- `goodMECs` collected for each even priority level. -/
def collectLevels (M : SolverMDP) (fuel : Nat) :
    List Nat → Option (List (List (List Nat) × List (Nat × List Nat)))
  | [] => some []
  | p :: rest =>
    (goodMECs M fuel p).bind (fun r =>
      (collectLevels M fuel rest).bind (fun rs => some (r :: rs)))

/-- The reachability strategy of `almostSureWin`: for each `p ∈ r`, the
actions all of whose successors lie in `r`. -/
def mkReachStrat (M : SolverMDP) (r : List Nat) : List (Nat × List Nat) :=
  r.map (fun p => (p, (List.range M.numActions).filter
    (fun a => (M.trans p a).all (fun q => decide (q ∈ r)))))

/-- The MEC-strategy cleaning of `almostSureWin`: keep an entry only for
actual MEC members with a non-empty action set. -/
def cleanStrats (levels : List (List (List Nat) × List (Nat × List Nat))) :
    List (List (Nat × List Nat)) :=
  levels.map (fun lv =>
    lv.2.filter (fun sa => decide (sa.1 ∈ lv.1.flatten) && !sa.2.isEmpty))

/-- `ParityMDPSolver.almostSureWin(max_priority)`. -/
def almostSureWin (M : SolverMDP) (fuel maxPriority : Nat) :
    Option (List Nat × List (Nat × List Nat) × List (List (Nat × List Nat))) :=
  (collectLevels M fuel
      ((List.range (maxPriority + 1)).filter (fun i => i % 2 == 0))).bind
    (fun levels =>
      (almostSureReach M fuel
          ((levels.map (fun lv => lv.1.flatten)).flatten)).bind (fun r =>
        some (r, mkReachStrat M r, cleanStrats levels)))

/-- Concrete MDP for claim C2's counterexample: one state of priority `0`
with a self-loop under action `0` and no successors under action `1`. -/
def mdpC2 : SolverMDP :=
  { numStates := 1, numActions := 2,
    trans := fun q a => if q = 0 ∧ a = 0 then [0] else [],
    prio := fun _ => 0 }

/-- Concrete MDP with a single priority-`0` self-loop state and one
action. -/
def mdpLoop : SolverMDP :=
  { numStates := 1, numActions := 1,
    trans := fun q a => if q = 0 ∧ a = 0 then [0] else [],
    prio := fun _ => 0 }

/-- Concrete two-state MDP (`0 → 1 → 1`) used as Tarjan witness. -/
def mdpChain : SolverMDP :=
  { numStates := 2, numActions := 1,
    trans := fun q _ => if q = 0 then [1] else [1],
    prio := fun _ => 0 }

/-- Concrete two-state MDP with self-loops and priorities `0` and `2`. -/
def mdpTwo : SolverMDP :=
  { numStates := 2, numActions := 1,
    trans := fun q _ => [q],
    prio := fun q => 2 * q }

/-! ## Predicates used by the development -/

/-- Per-state property established by the belief-support exploration loop
for each processed belief: one successor row per action, duplicate-free,
non-empty exactly when some state of the belief has outgoing mass. -/
def RowsProp (P : ProdPOMDP) (bs : Belief) (rows : List (List Nat)) : Prop :=
  rows.length = P.numActions ∧
  ∀ a, a < P.numActions →
    (rows.getD a []).Nodup ∧ ((rows.getD a [] ≠ []) ↔ hasOutgoing P bs a)

/-- The invariant maintained by `goodMECs` for every candidate MEC at
priority `p`: non-empty, all states of priority at most `p`, and (for
nonzero `p`) top priority at least `p`. -/
def GoodMec (M : SolverMDP) (p : Nat) (mec : List Nat) : Prop :=
  mec ≠ [] ∧ (∀ s ∈ mec, M.prio s ≤ p)
    ∧ (p ≠ 0 → p ≤ mec.foldl (fun m o => max m (M.prio o)) 0)

/-- Well-formedness of a Tarjan traversal state over the input set `univ`:
the stack and the emitted SCCs are disjoint and duplicate-free, `onStack`
mirrors the stack, a node is on the stack or in an emitted SCC exactly
when it has been indexed, indexed nodes lie in `univ` with index below the
counter, and lowlinks never exceed indices. -/
structure TInv (univ : List Nat) (σ : TarjanSt) : Prop where
  bigNodup : (σ.stack ++ σ.sccs.flatten).Nodup
  onStackIff : ∀ w, σ.onStack w = true ↔ w ∈ σ.stack
  visitedIff : ∀ w, (w ∈ σ.stack ∨ w ∈ σ.sccs.flatten) ↔ σ.stIdx w ≠ none
  visitedUniv : ∀ w, σ.stIdx w ≠ none → w ∈ univ
  idxBound : ∀ w v, σ.stIdx w = some v → v < σ.idx
  lowLe : ∀ w v, σ.stIdx w = some v → σ.stLow w ≤ v

/-- What one Tarjan call does to the traversal state: the stack is
extended (below, nothing is lost), SCCs are appended, indices are
preserved, the counter grows, and newly indexed nodes receive indices at
least the entry counter. -/
structure StepPost (σ σ2 : TarjanSt) : Prop where
  stackExt : ∃ ext, σ2.stack = ext ++ σ.stack
  sccsExt : ∃ more, σ2.sccs = σ.sccs ++ more
  stIdxPres : ∀ w v, σ.stIdx w = some v → σ2.stIdx w = some v
  idxMono : σ.idx ≤ σ2.idx
  freshGe : ∀ w v, σ.stIdx w = none → σ2.stIdx w = some v → σ.idx ≤ v

/-- `B` bounds the counter and every index on the stack from below. -/
def StackBound (σ : TarjanSt) (B : Nat) : Prop :=
  B ≤ σ.idx ∧ ∀ w ∈ σ.stack, ∀ v, σ.stIdx w = some v → B ≤ v

/-- The postcondition of `_strongConnect(q)` (`tVisit`). -/
structure VisitPost (univ : List Nat) (q : Nat) (σ σ2 : TarjanSt) : Prop where
  inv : TInv univ σ2
  step : StepPost σ σ2
  idxQ : σ2.stIdx q = some σ.idx
  lowPres : ∀ w, σ.stIdx w ≠ none → σ2.stLow w = σ.stLow w
  lowBound : ∀ B, StackBound σ B → B ≤ σ2.stLow q
  stackCases : σ2.stack = σ.stack ∨ ∃ l, σ2.stack = l ++ q :: σ.stack
  emptyStack : σ.stack = [] → σ2.stack = []

/-- The postcondition of the successor loop of `_strongConnect(q)`
(`tVisitListAux`). -/
structure ListPost (univ : List Nat) (q : Nat) (σ σ2 : TarjanSt) : Prop where
  inv : TInv univ σ2
  step : StepPost σ σ2
  lowPres : ∀ w, w ≠ q → σ.stIdx w ≠ none → σ2.stLow w = σ.stLow w
  lowBound : ∀ B, StackBound σ B → min (σ.stLow q) B ≤ σ2.stLow q

/-! ## General list lemmas -/

theorem foldl_overwrite_eq_getLastD (f : Nat → Nat) :
    ∀ (l : List Nat) (a : Nat), l ≠ [] →
      l.foldl (fun _ p => f p) a = f (l.getLastD 0)
  | [], _, h => absurd rfl h
  | x :: xs, a, _ => by
      cases xs with
      | nil => simp [List.foldl, List.getLastD]
      | cons y ys =>
          have := foldl_overwrite_eq_getLastD f (y :: ys) (f x) (by simp)
          simpa [List.foldl, List.getLastD] using this

theorem le_foldl_max : ∀ (l : List Nat) (a : Nat), a ≤ l.foldl max a
  | [], _ => le_refl _
  | x :: xs, a => le_trans (Nat.le_max_left a x) (le_foldl_max xs (max a x))

theorem mem_le_foldl_max : ∀ (l : List Nat) (a x : Nat), x ∈ l → x ≤ l.foldl max a
  | [], _, _, h => absurd h (by simp)
  | y :: ys, a, x, h => by
      rcases List.mem_cons.mp h with h1 | h2
      · subst h1
        exact le_trans (Nat.le_max_right a x) (le_foldl_max ys (max a x))
      · exact mem_le_foldl_max ys (max a y) x h2

theorem foldl_max_le : ∀ (l : List Nat) (a b : Nat), a ≤ b → (∀ x ∈ l, x ≤ b) →
    l.foldl max a ≤ b
  | [], _, _, ha, _ => ha
  | y :: ys, a, b, ha, hl => by
      refine foldl_max_le ys (max a y) b ?_ ?_
      · exact max_le ha (hl y (by simp))
      · intro x hx; exact hl x (List.mem_cons_of_mem _ hx)

theorem getLastD_mem_of_ne_nil : ∀ (l : List Nat) (d : Nat), l ≠ [] → l.getLastD d ∈ l
  | [], _, h => absurd rfl h
  | x :: xs, d, _ => by
      cases xs with
      | nil => simp [List.getLastD]
      | cons y ys =>
          have := getLastD_mem_of_ne_nil (y :: ys) d (by simp)
          exact List.mem_cons_of_mem x this

theorem foldl_max_eq_getLastD (l : List Nat) (h : l ≠ [])
    (hb : ∀ x ∈ l, x ≤ l.getLastD 0) : l.foldl max 0 = l.getLastD 0 := by
  refine le_antisymm (foldl_max_le l 0 _ (Nat.zero_le _) hb) ?_
  exact mem_le_foldl_max l 0 _ (getLastD_mem_of_ne_nil l 0 h)

theorem foldl_max_fn_congr {α : Type} (f g : α → Nat) :
    ∀ (l : List α) (a : Nat), (∀ x ∈ l, f x = g x) →
      l.foldl (fun m x => max m (f x)) a = l.foldl (fun m x => max m (g x)) a
  | [], _, _ => rfl
  | y :: ys, a, h => by
      have hy : f y = g y := h y (by simp)
      have := foldl_max_fn_congr f g ys (max a (g y))
        (fun x hx => h x (List.mem_cons_of_mem _ hx))
      simpa [List.foldl, hy] using this

/-! ## Claim C1 -/

theorem belief_elem_eq_prioinv (aut : Automaton) (q : Nat)
    (h : (aut.stateAccSets q = [] ∧ aut.accNumSets = 1) ∨
      (aut.stateAccSets q ≠ [] ∧
        ∀ x ∈ aut.stateAccSets q, x ≤ (aut.stateAccSets q).getLastD 0)) :
    belief_elem_prio aut q = set_priorities_prioinv aut q := by
  rcases h with ⟨he, hk⟩ | ⟨hne, hb⟩
  · simp [belief_elem_prio, set_priorities_prioinv, he, hk]
  · have hemp : (aut.stateAccSets q).isEmpty = false := by
      cases hl : aut.stateAccSets q with
      | nil => exact absurd hl hne
      | cons x xs => simp
    rw [belief_elem_prio, set_priorities_prioinv]
    simp only [hemp, Bool.false_eq_true, if_false]
    rw [foldl_max_eq_getLastD _ hne hb,
      foldl_overwrite_eq_getLastD _ _ _ hne]

/-- Claim C1 (amended): the priority assigned by
`BeliefSuppMDP._set_priorities_product` to a belief support `bs` equals the
maximum over the elements `(s, q)` of `bs` of the priority
`set_priorities` in `product.py` assigns to the product state `(s, q)`,
provided each automaton state occurring in `bs` either has a nonempty
acceptance-set list whose last entry is its maximum (as spot produces) or
has an empty acceptance-set list while the automaton is single-acceptance.
(Without that proviso the claim fails: for a non-single-acceptance
automaton, an empty-acceptance state contributes `0` to the belief priority
but is assigned priority `1` in the product.) -/
theorem belief_prio_eq_max_product_prio (aut : Automaton) (bs : List (Nat × Nat))
    (h : ∀ sq ∈ bs, (aut.stateAccSets sq.2 = [] ∧ aut.accNumSets = 1) ∨
      (aut.stateAccSets sq.2 ≠ [] ∧
        ∀ x ∈ aut.stateAccSets sq.2, x ≤ (aut.stateAccSets sq.2).getLastD 0)) :
    set_priorities_product_prio aut bs = max_product_prio aut bs := by
  rw [set_priorities_product_prio, max_product_prio, List.foldl_map]
  exact foldl_max_fn_congr _ _ bs 0
    (fun sq hsq => belief_elem_eq_prioinv aut sq.2 (h sq hsq))

/-- Claim C1, counterexample: for a non-single-acceptance automaton with an
empty-acceptance state, the belief-support priority of the singleton belief
`{(0, 0)}` is `0` while the product construction assigns that product state
priority `1`. -/
theorem belief_prio_vs_product_counterexample :
    set_priorities_product_prio autC1 [(0, 0)] ≠ max_product_prio autC1 [(0, 0)] := by
  decide

/-- Claim C1, witness for the amended theorem. -/
theorem belief_prio_eq_max_product_prio_witness :
    (∀ sq ∈ [((0 : Nat), (0 : Nat)), (1, 1)],
      (autC1w.stateAccSets sq.2 = [] ∧ autC1w.accNumSets = 1) ∨
      (autC1w.stateAccSets sq.2 ≠ [] ∧
        ∀ x ∈ autC1w.stateAccSets sq.2, x ≤ (autC1w.stateAccSets sq.2).getLastD 0)) ∧
    set_priorities_product_prio autC1w [(0, 0), (1, 1)]
      = max_product_prio autC1w [(0, 0), (1, 1)] :=
  ⟨by decide, belief_prio_eq_max_product_prio autC1w [(0, 0), (1, 1)] (by decide)⟩

/-! ## Claim C8 -/

/-- Claim C8: the product has exactly `|S| * |Q|` states, and the encoding
`idx(s, q) = q * |S| + s` is inverted by `idx % |S|` and `idx / |S|` for all
`s < |S|` and `q < |Q|`. -/
theorem product_state_count_and_index_bijection (envStates : List String)
    (numAutStates s q : Nat) (hs : s < envStates.length) (_hq : q < numAutStates) :
    (init_product_states numAutStates envStates).length
      = envStates.length * numAutStates
    ∧ decode_env_idx envStates.length
        (get_product_state_index envStates.length s q) = s
    ∧ decode_aut_idx envStates.length
        (get_product_state_index envStates.length s q) = q := by
  have hn : 0 < envStates.length := Nat.lt_of_le_of_lt (Nat.zero_le s) hs
  refine ⟨?_, ?_, ?_⟩
  · simp [init_product_states, List.length_flatMap, Function.comp_def,
      List.map_const', List.sum_replicate, smul_eq_mul, Nat.mul_comm]
  · rw [decode_env_idx, get_product_state_index, Nat.mul_comm,
      Nat.add_comm, Nat.add_mul_mod_self_left]
    exact Nat.mod_eq_of_lt hs
  · rw [decode_aut_idx, get_product_state_index, Nat.mul_comm,
      Nat.mul_add_div hn, Nat.div_eq_of_lt hs, Nat.add_zero]

/-- Claim C8, witness. -/
theorem product_state_count_and_index_bijection_witness :
    (init_product_states 2 ["a", "b", "c"]).length = 3 * 2
    ∧ decode_env_idx 3 (get_product_state_index 3 2 1) = 2
    ∧ decode_aut_idx 3 (get_product_state_index 3 2 1) = 1 :=
  product_state_count_and_index_bijection ["a", "b", "c"] 2 2 1
    (by decide) (by decide)

/-! ## Claim C9 -/

/-- Claim C9: when the observation formula `L(o)` matches no outgoing
automaton transition guard at state `q`, `get_next_aut_state_by_observation`
fails with an error surfaced to the caller. -/
theorem no_matching_guard_yields_error (aut : Automaton)
    (obsFormula : Nat → String) (o q : Nat)
    (h : ∀ t ∈ aut.out q, t.cond ≠ obsFormula o) :
    ∃ msg, get_next_aut_state_by_observation aut obsFormula o q
      = Except.error msg := by
  rw [get_next_aut_state_by_observation]
  have hnone : (aut.out q).find? (fun t => t.cond == obsFormula o) = none := by
    rw [List.find?_eq_none]
    intro x hx
    simpa using h x hx
  rw [hnone]
  exact ⟨_, rfl⟩

/-- Claim C9, witness. -/
theorem no_matching_guard_yields_error_witness :
    (∀ t ∈ autC9.out 0, t.cond ≠ (fun _ : Nat => "b") 0) ∧
    ∃ msg, get_next_aut_state_by_observation autC9 (fun _ => "b") 0 0
      = Except.error msg :=
  ⟨by decide, no_matching_guard_yields_error autC9 (fun _ => "b") 0 0 (by decide)⟩

/-! ## Belief-support construction lemmas -/

theorem getD_replicate_of_lt {α : Type} (n i : Nat) (a d : α) (h : i < n) :
    (List.replicate n a).getD i d = a := by
  rw [List.getD_eq_getElem _ _ (by simpa using h)]
  simp

theorem canonPairs_ne_nil {l : List (Nat × Nat)} {x : Nat × Nat} (hx : x ∈ l) :
    canonPairs l ≠ [] := by
  have : x ∈ canonPairs l := by
    rw [canonPairs, List.mem_insertionSort, List.mem_dedup]
    exact hx
  exact List.ne_nil_of_mem this

theorem mem_obsList (P : ProdPOMDP) (bs : Belief) (a o : Nat) :
    o ∈ obsList P bs a ↔
      ∃ sq ∈ bs, ∃ t ∈ P.transitions (sq.2 * P.numBaseStates + sq.1) a,
        0 < t.2 ∧ t.1.2 = o := by
  rw [obsList, List.mem_insertionSort, List.mem_dedup, List.mem_flatMap]
  constructor
  · rintro ⟨sq, hsq, hmem⟩
    rw [List.mem_filterMap] at hmem
    obtain ⟨t, ht, hsome⟩ := hmem
    by_cases hpos : 0 < t.2
    · refine ⟨sq, hsq, t, ht, hpos, ?_⟩
      rw [if_pos hpos] at hsome
      exact Option.some.inj hsome
    · rw [if_neg hpos] at hsome
      exact absurd hsome (by simp)
  · rintro ⟨sq, hsq, t, ht, hpos, hobs⟩
    refine ⟨sq, hsq, ?_⟩
    rw [List.mem_filterMap]
    exact ⟨t, ht, by rw [if_pos hpos, hobs]⟩

theorem obsList_nil_iff (P : ProdPOMDP) (bs : Belief) (a : Nat) :
    obsList P bs a = [] ↔ ¬ hasOutgoing P bs a := by
  constructor
  · intro hnil ⟨sq, hsq, t, ht, hpos⟩
    have : t.1.2 ∈ obsList P bs a :=
      (mem_obsList P bs a t.1.2).mpr ⟨sq, hsq, t, ht, hpos, rfl⟩
    rw [hnil] at this
    exact absurd this (by simp)
  · intro hno
    by_contra hne
    obtain ⟨o, ho⟩ := List.exists_mem_of_ne_nil _ hne
    obtain ⟨sq, hsq, t, ht, hpos, _⟩ := (mem_obsList P bs a o).mp ho
    exact hno ⟨sq, hsq, t, ht, hpos⟩

theorem succPairs_ne_nil_of_mem_obsList (P : ProdPOMDP) (bs : Belief) (a o : Nat)
    (h : o ∈ obsList P bs a) : succPairsForObs P bs a o ≠ [] := by
  obtain ⟨sq, hsq, t, ht, hpos, hobs⟩ := (mem_obsList P bs a o).mp h
  refine canonPairs_ne_nil (x := (t.1.1 % P.numBaseStates, t.1.1 / P.numBaseStates)) ?_
  rw [List.mem_flatMap]
  refine ⟨sq, hsq, ?_⟩
  rw [List.mem_filterMap]
  exact ⟨t, ht, by rw [if_pos ⟨hpos, hobs⟩]⟩

theorem findIdx?_none_not_mem {α : Type} [DecidableEq α] :
    ∀ (l : List α) (x : α), l.findIdx? (fun b => decide (b = x)) = none → x ∉ l := by
  intro l x h hx
  rw [List.findIdx?_eq_none_iff] at h
  have := h x hx
  simp at this

theorem addSucc_eq_nil (states : List Belief) (row : List Nat) :
    addSucc states row [] = (states, row) := by
  rw [addSucc, if_pos rfl]

theorem addSucc_eq_found (states : List Belief) (row : List Nat) (nb : Belief)
    (j : Nat) (hnb : nb ≠ [])
    (hf : states.findIdx? (fun b => decide (b = nb)) = some j) :
    addSucc states row nb = (states, if j ∈ row then row else row ++ [j]) := by
  rw [addSucc, if_neg hnb, hf]

theorem addSucc_eq_new (states : List Belief) (row : List Nat) (nb : Belief)
    (hnb : nb ≠ [])
    (hf : states.findIdx? (fun b => decide (b = nb)) = none) :
    addSucc states row nb = (states ++ [nb],
      if states.length ∈ row then row else row ++ [states.length]) := by
  rw [addSucc, if_neg hnb, hf]

theorem addSucc_cases (states : List Belief) (row : List Nat) (nb : Belief) :
    (addSucc states row nb).1 = states
    ∨ ((addSucc states row nb).1 = states ++ [nb] ∧ nb ∉ states) := by
  by_cases hnb : nb = []
  · subst hnb
    rw [addSucc_eq_nil]
    exact Or.inl rfl
  · cases hf : states.findIdx? (fun b => decide (b = nb)) with
    | some j =>
        rw [addSucc_eq_found states row nb j hnb hf]
        exact Or.inl rfl
    | none =>
        rw [addSucc_eq_new states row nb hnb hf]
        exact Or.inr ⟨rfl, findIdx?_none_not_mem states nb hf⟩

theorem addSucc_row_cases (states : List Belief) (row : List Nat) (nb : Belief) :
    (addSucc states row nb).2 = row
    ∨ ∃ j, j ∉ row ∧ (addSucc states row nb).2 = row ++ [j] := by
  by_cases hnb : nb = []
  · subst hnb
    rw [addSucc_eq_nil]
    exact Or.inl rfl
  · cases hf : states.findIdx? (fun b => decide (b = nb)) with
    | some j =>
        rw [addSucc_eq_found states row nb j hnb hf]
        by_cases hj : j ∈ row
        · rw [if_pos hj]; exact Or.inl rfl
        · rw [if_neg hj]; exact Or.inr ⟨j, hj, rfl⟩
    | none =>
        rw [addSucc_eq_new states row nb hnb hf]
        by_cases hj : states.length ∈ row
        · rw [if_pos hj]; exact Or.inl rfl
        · rw [if_neg hj]; exact Or.inr ⟨states.length, hj, rfl⟩

theorem addSucc_states_extend (states : List Belief) (row : List Nat) (nb : Belief) :
    states <+: (addSucc states row nb).1 := by
  rcases addSucc_cases states row nb with h | ⟨h, _⟩
  · rw [h]
  · rw [h]; exact List.prefix_append states [nb]

theorem addSucc_states_nodup (states : List Belief) (row : List Nat) (nb : Belief)
    (h : states.Nodup) : (addSucc states row nb).1.Nodup := by
  rcases addSucc_cases states row nb with heq | ⟨heq, hmem⟩
  · rw [heq]; exact h
  · rw [heq, List.nodup_append]
    refine ⟨h, List.nodup_singleton nb, ?_⟩
    intro b hb hb'
    rw [List.mem_singleton] at hb'
    subst hb'
    exact hmem hb

theorem addSucc_row_nodup (states : List Belief) (row : List Nat) (nb : Belief)
    (h : row.Nodup) : (addSucc states row nb).2.Nodup := by
  rcases addSucc_row_cases states row nb with heq | ⟨j, hj, heq⟩
  · rw [heq]; exact h
  · rw [heq, List.nodup_append]
    refine ⟨h, List.nodup_singleton j, ?_⟩
    intro b hb hb'
    rw [List.mem_singleton] at hb'
    subst hb'
    exact hj hb

theorem addSucc_row_ne_nil_of_ne_nil (states : List Belief) (row : List Nat)
    (nb : Belief) (h : row ≠ []) : (addSucc states row nb).2 ≠ [] := by
  rcases addSucc_row_cases states row nb with heq | ⟨j, _, heq⟩
  · rw [heq]; exact h
  · rw [heq]; simp

theorem addSucc_row_ne_nil_of_nb (states : List Belief) (row : List Nat)
    (nb : Belief) (h : nb ≠ []) : (addSucc states row nb).2 ≠ [] := by
  cases hf : states.findIdx? (fun b => decide (b = nb)) with
  | some j =>
      rw [addSucc_eq_found states row nb j h hf]
      by_cases hj : j ∈ row
      · rw [if_pos hj]
        exact List.ne_nil_of_mem hj
      · rw [if_neg hj]; simp
  | none =>
      rw [addSucc_eq_new states row nb h hf]
      by_cases hj : states.length ∈ row
      · rw [if_pos hj]
        exact List.ne_nil_of_mem hj
      · rw [if_neg hj]; simp

theorem paFold_spec (P : ProdPOMDP) (bs : Belief) (a : Nat) :
    ∀ (l : List Nat) (sts : List Belief) (row : List Nat),
      sts <+: (l.foldl
          (fun acc o => addSucc acc.1 acc.2 (succPairsForObs P bs a o)) (sts, row)).1
      ∧ (sts.Nodup → (l.foldl
          (fun acc o => addSucc acc.1 acc.2 (succPairsForObs P bs a o)) (sts, row)).1.Nodup)
      ∧ (row.Nodup → (l.foldl
          (fun acc o => addSucc acc.1 acc.2 (succPairsForObs P bs a o)) (sts, row)).2.Nodup)
      ∧ (row ≠ [] → (l.foldl
          (fun acc o => addSucc acc.1 acc.2 (succPairsForObs P bs a o)) (sts, row)).2 ≠ [])
      ∧ ((∃ o ∈ l, succPairsForObs P bs a o ≠ []) → (l.foldl
          (fun acc o => addSucc acc.1 acc.2 (succPairsForObs P bs a o)) (sts, row)).2 ≠ [])
  | [], sts, row => by
      refine ⟨List.prefix_refl sts, fun h => h, fun h => h, fun h => h, ?_⟩
      rintro ⟨o, ho, _⟩
      exact absurd ho (by simp)
  | o :: rest, sts, row => by
      have step := paFold_spec P bs a rest
        (addSucc sts row (succPairsForObs P bs a o)).1
        (addSucc sts row (succPairsForObs P bs a o)).2
      simp only [List.foldl_cons]
      refine ⟨?_, ?_, ?_, ?_, ?_⟩
      · exact (addSucc_states_extend sts row _).trans step.1
      · intro h
        exact step.2.1 (addSucc_states_nodup sts row _ h)
      · intro h
        exact step.2.2.1 (addSucc_row_nodup sts row _ h)
      · intro h
        exact step.2.2.2.1 (addSucc_row_ne_nil_of_ne_nil sts row _ h)
      · rintro ⟨o', ho', hne⟩
        rcases List.mem_cons.mp ho' with h1 | h2
        · subst h1
          exact step.2.2.2.1 (addSucc_row_ne_nil_of_nb sts row _ hne)
        · exact step.2.2.2.2 ⟨o', h2, hne⟩

theorem processAction_states_extend (P : ProdPOMDP) (bs : Belief) (a : Nat)
    (states : List Belief) : states <+: (processAction P bs a states).1 :=
  (paFold_spec P bs a (obsList P bs a) states []).1

theorem processAction_states_nodup (P : ProdPOMDP) (bs : Belief) (a : Nat)
    (states : List Belief) (h : states.Nodup) :
    (processAction P bs a states).1.Nodup :=
  (paFold_spec P bs a (obsList P bs a) states []).2.1 h

theorem processAction_row_nodup (P : ProdPOMDP) (bs : Belief) (a : Nat)
    (states : List Belief) : (processAction P bs a states).2.Nodup := by
  rw [processAction]
  exact ((List.perm_insertionSort _ _).nodup_iff).mpr
    ((paFold_spec P bs a (obsList P bs a) states []).2.2.1 List.nodup_nil)

theorem processAction_row_ne_nil_iff (P : ProdPOMDP) (bs : Belief) (a : Nat)
    (states : List Belief) :
    (processAction P bs a states).2 ≠ [] ↔ hasOutgoing P bs a := by
  have hperm : (processAction P bs a states).2.Perm
      ((obsList P bs a).foldl
        (fun acc o => addSucc acc.1 acc.2 (succPairsForObs P bs a o))
        (states, [])).2 := by
    rw [processAction]
    exact List.perm_insertionSort _ _
  constructor
  · intro hne
    by_contra hno
    have hnil : obsList P bs a = [] := (obsList_nil_iff P bs a).mpr hno
    apply hne
    rw [hnil] at hperm
    exact List.Perm.eq_nil (by simpa using hperm)
  · intro hout
    obtain ⟨sq, hsq, t, ht, hpos⟩ := hout
    have hmem : t.1.2 ∈ obsList P bs a :=
      (mem_obsList P bs a t.1.2).mpr ⟨sq, hsq, t, ht, hpos, rfl⟩
    have hfold :=
      (paFold_spec P bs a (obsList P bs a) states []).2.2.2.2
        ⟨t.1.2, hmem, succPairs_ne_nil_of_mem_obsList P bs a t.1.2 hmem⟩
    intro hnil
    apply hfold
    rw [hnil] at hperm
    exact List.Perm.eq_nil hperm.symm

theorem psFold_spec (P : ProdPOMDP) (bs : Belief) :
    ∀ (l : List Nat) (sts : List Belief) (rows : List (List Nat)),
      ∃ tail,
        (l.foldl (fun acc a =>
            ((processAction P bs a acc.1).1, acc.2 ++ [(processAction P bs a acc.1).2]))
          (sts, rows)).2 = rows ++ tail
        ∧ tail.length = l.length
        ∧ (∀ k, k < l.length →
            ∃ sts2, tail.getD k [] = (processAction P bs (l.getD k 0) sts2).2)
        ∧ sts <+: (l.foldl (fun acc a =>
            ((processAction P bs a acc.1).1, acc.2 ++ [(processAction P bs a acc.1).2]))
          (sts, rows)).1
        ∧ (sts.Nodup → (l.foldl (fun acc a =>
            ((processAction P bs a acc.1).1, acc.2 ++ [(processAction P bs a acc.1).2]))
          (sts, rows)).1.Nodup)
  | [], sts, rows => by
      refine ⟨[], by simp, rfl, ?_, List.prefix_refl sts, fun h => h⟩
      intro k hk
      exact absurd hk (by simp)
  | a :: rest, sts, rows => by
      obtain ⟨tail, heq, hlen, hrows, hpre, hnd⟩ := psFold_spec P bs rest
        (processAction P bs a sts).1 (rows ++ [(processAction P bs a sts).2])
      refine ⟨(processAction P bs a sts).2 :: tail, ?_, by simp [hlen], ?_, ?_, ?_⟩
      · simp only [List.foldl_cons]
        rw [heq, List.append_assoc]
        rfl
      · intro k hk
        cases k with
        | zero => exact ⟨sts, rfl⟩
        | succ k' =>
            have := hrows k' (by simpa using Nat.lt_of_succ_lt_succ hk)
            simpa using this
      · simp only [List.foldl_cons]
        exact (processAction_states_extend P bs a sts).trans hpre
      · intro h
        simp only [List.foldl_cons]
        exact hnd (processAction_states_nodup P bs a sts h)

theorem processState_rowsProp (P : ProdPOMDP) (bs : Belief) (states : List Belief) :
    RowsProp P bs (processState P bs states).2
    ∧ states <+: (processState P bs states).1
    ∧ (states.Nodup → (processState P bs states).1.Nodup) := by
  obtain ⟨tail, heq, hlen, hrows, hpre, hnd⟩ :=
    psFold_spec P bs (List.range P.numActions) states []
  have heq2 : (processState P bs states).2 = tail := by
    rw [processState]
    simpa using heq
  have hpre2 : states <+: (processState P bs states).1 := by
    rw [processState]; exact hpre
  have hnd2 : states.Nodup → (processState P bs states).1.Nodup := by
    rw [processState]; exact hnd
  refine ⟨⟨by rw [heq2, hlen]; simp, ?_⟩, hpre2, hnd2⟩
  intro a ha
  have hk := hrows a (by simpa using ha)
  obtain ⟨sts2, hs⟩ := hk
  have hget : (List.range P.numActions).getD a 0 = a := by
    rw [List.getD_eq_getElem _ _ (by simpa using ha), List.getElem_range]
  rw [hget] at hs
  rw [heq2, hs]
  exact ⟨processAction_row_nodup P bs a sts2, processAction_row_ne_nil_iff P bs a sts2⟩

theorem prefix_getD_eq {α : Type} {l₁ l₂ : List α} (h : l₁ <+: l₂) {j : Nat}
    (hj : j < l₁.length) (d : α) : l₂.getD j d = l₁.getD j d := by
  obtain ⟨t, rfl⟩ := h
  exact List.getD_append l₁ t d j hj

theorem buildLoop_invariant (P : ProdPOMDP) :
    ∀ (fuel : Nat) (states : List Belief) (tr : List (List (List Nat))) (i : Nat)
      (res : BSResult),
      buildLoop P fuel states tr i = some res →
      states.Nodup → tr.length = i →
      (∀ j, j < i → RowsProp P (states.getD j []) (tr.getD j [])) →
      res.states.Nodup ∧
        ∀ j, j < res.trans.length →
          RowsProp P (res.states.getD j []) (res.trans.getD j [])
  | 0, _, _, _, _ => by
      intro h _ _ _
      exact absurd h (by simp [buildLoop])
  | fuel + 1, states, tr, i, res => by
      intro h hnd hlen hinv
      rw [buildLoop] at h
      by_cases hi : i < states.length
      · rw [if_pos hi] at h
        obtain ⟨hrp, hpre, hnd'⟩ := processState_rowsProp P (states.getD i []) states
        refine buildLoop_invariant P fuel _ _ (i + 1) res h (hnd' hnd) (by simp [hlen]) ?_
        intro j hj
        rcases Nat.lt_or_ge j i with hji | hji
        · have hold := hinv j hji
          have hs : (processState P (states.getD i []) states).1.getD j []
              = states.getD j [] :=
            prefix_getD_eq hpre (Nat.lt_trans hji hi) []
          have ht : ((tr ++ [(processState P (states.getD i []) states).2]).getD j [])
              = tr.getD j [] :=
            List.getD_append tr _ [] j (by rw [hlen]; exact hji)
          rw [hs, ht]
          exact hold
        · have hji2 : j = i := Nat.le_antisymm (Nat.lt_succ_iff.mp hj) hji
          subst hji2
          have hs : (processState P (states.getD j []) states).1.getD j []
              = states.getD j [] :=
            prefix_getD_eq hpre hi []
          have ht : ((tr ++ [(processState P (states.getD j []) states).2]).getD j [])
              = (processState P (states.getD j []) states).2 := by
            rw [List.getD_append_right tr _ [] j (by rw [hlen])]
            rw [hlen]
            simp
          rw [hs, ht]
          exact hrp
      · rw [if_neg hi] at h
        have hres : res = ⟨states, tr⟩ := by
          cases h; rfl
        subst hres
        exact ⟨hnd, fun j hj => hinv j (by rw [← hlen]; exact hj)⟩

theorem buildBeliefSuppMDP_invariant (P : ProdPOMDP) (fuel : Nat) (res : BSResult)
    (h : buildBeliefSuppMDP P fuel = some res) :
    res.states.Nodup ∧
      ∀ j, j < res.trans.length →
        RowsProp P (res.states.getD j []) (res.trans.getD j []) := by
  refine buildLoop_invariant P fuel [initialBelief P] [] 0 res h
    (List.nodup_singleton _) rfl ?_
  intro j hj
  exact absurd hj (by simp)

/-! ## Claim C3 -/

/-- Claim C3 (amended): in the constructed belief-support MDP, the
successor set `T(B, a)` is non-empty iff some state in `B` has outgoing
transition mass under `a`; but an action with an empty successor set is
not removed from the action set: every processed state keeps one successor
entry per action (the disabled ones empty), and `resetPreAct` counts all
actions (`act[i] = len(self.actions)`) rather than only the enabled
ones. -/
theorem bs_enabled_iff_and_action_counts (P : ProdPOMDP) (fuel : Nat)
    (res : BSResult) (h : buildBeliefSuppMDP P fuel = some res) :
    (∀ j, j < res.trans.length →
      (res.trans.getD j []).length = P.numActions ∧
      ∀ a, a < P.numActions →
        (((res.trans.getD j []).getD a [] ≠ []) ↔
          hasOutgoing P (res.states.getD j []) a))
    ∧ ∀ n m i, i < n → (resetAct n m).getD i 0 = m := by
  refine ⟨?_, ?_⟩
  · intro j hj
    have hrp := (buildBeliefSuppMDP_invariant P fuel res h).2 j hj
    exact ⟨hrp.1, fun a ha => (hrp.2 a ha).2⟩
  · intro n m i hi
    exact getD_replicate_of_lt n i m 0 hi

/-- Claim C3, counterexample: in the MDP built from `prodC3`, action `1`
at the initial belief has an empty successor set but is not pruned from
the action set (the state keeps an empty successor entry for it), and
`resetPreAct` counts both actions even though only one is enabled. -/
theorem bs_disabled_action_kept_counterexample :
    buildBeliefSuppMDP prodC3 10 = some ⟨[[(0, 0)]], [[[0], []]]⟩
    ∧ ([[0], []] : List (List Nat)).length = prodC3.numActions
    ∧ (([[0], []] : List (List Nat)).getD 1 []) = []
    ∧ (resetAct 1 prodC3.numActions).getD 0 0 = 2
    ∧ ((List.range prodC3.numActions).filter
        (fun a => !(([[0], []] : List (List Nat)).getD a []).isEmpty)).length = 1
    ∧ (2 : Nat) ≠ 1 :=
  ⟨by decide, by decide, by decide, by decide, by decide, by decide⟩

/-- Claim C3, witness for the amended theorem. -/
theorem bs_enabled_iff_and_action_counts_witness :
    buildBeliefSuppMDP prodC3 10 = some ⟨[[(0, 0)]], [[[0], []]]⟩
    ∧ ((((⟨[[(0, 0)]], [[[0], []]]⟩ : BSResult).trans.getD 0 []).getD 0 [] ≠ []) ↔
        hasOutgoing prodC3 ((⟨[[(0, 0)]], [[[0], []]]⟩ : BSResult).states.getD 0 []) 0)
    ∧ (resetAct 3 2).getD 1 0 = 2 :=
  ⟨by decide,
   ((bs_enabled_iff_and_action_counts prodC3 10 ⟨[[(0, 0)]], [[[0], []]]⟩ (by decide)).1
      0 (by decide)).2 0 (by decide),
   (bs_enabled_iff_and_action_counts prodC3 10 ⟨[[(0, 0)]], [[[0], []]]⟩ (by decide)).2
      3 2 1 (by decide)⟩

/-! ## Claim C7 -/

/-- Claim C7 (amended): two different observations may produce identical
successor beliefs (they are not distinct by construction); deduplication
does hold: the interned state list contains each canonical sorted tuple at
most once, and each per-action successor row lists each successor index at
most once. -/
theorem bs_dedup_nodup (P : ProdPOMDP) (fuel : Nat) (res : BSResult)
    (h : buildBeliefSuppMDP P fuel = some res) :
    res.states.Nodup ∧
      ∀ j a, j < res.trans.length → a < P.numActions →
        ((res.trans.getD j []).getD a []).Nodup := by
  obtain ⟨hnd, hrows⟩ := buildBeliefSuppMDP_invariant P fuel res h
  exact ⟨hnd, fun j a hj ha => ((hrows j hj).2 a ha).1⟩

/-- Claim C7, counterexample: from the initial belief of `prodC7`, the two
distinct observations `0` and `1` under action `0` produce the same
successor belief. -/
theorem distinct_obs_same_succ_belief_counterexample :
    initialBelief prodC7 = [(0, 0)]
    ∧ obsList prodC7 [(0, 0)] 0 = [0, 1]
    ∧ (0 : Nat) ≠ 1
    ∧ succPairsForObs prodC7 [(0, 0)] 0 0 = succPairsForObs prodC7 [(0, 0)] 0 1 :=
  ⟨by decide, by decide, by decide, by decide⟩

/-- Claim C7, witness for the amended theorem. -/
theorem bs_dedup_nodup_witness :
    buildBeliefSuppMDP prodC7 10 = some ⟨[[(0, 0)]], [[[0]]]⟩
    ∧ ((⟨[[(0, 0)]], [[[0]]]⟩ : BSResult).states).Nodup
    ∧ (((⟨[[(0, 0)]], [[[0]]]⟩ : BSResult).trans.getD 0 []).getD 0 []).Nodup :=
  ⟨by decide,
   (bs_dedup_nodup prodC7 10 ⟨[[(0, 0)]], [[[0]]]⟩ (by decide)).1,
   (bs_dedup_nodup prodC7 10 ⟨[[(0, 0)]], [[[0]]]⟩ (by decide)).2 0 0
     (by decide) (by decide)⟩

/-! ## Solver lemmas -/

theorem mem_insertSortedNat (x : Nat) :
    ∀ (l : List Nat) (y : Nat), y ∈ insertSortedNat x l ↔ y = x ∨ y ∈ l
  | [], _ => by simp [insertSortedNat]
  | z :: zs, y => by
      rw [insertSortedNat]
      by_cases h1 : x < z
      · rw [if_pos h1]
        simp [or_comm, or_assoc, or_left_comm]
      · rw [if_neg h1]
        by_cases h2 : x = z
        · subst h2
          rw [if_pos rfl]
          constructor
          · intro h; exact Or.inr h
          · rintro (h | h)
            · subst h; simp
            · exact h
        · rw [if_neg h2]
          rw [List.mem_cons, List.mem_cons, mem_insertSortedNat x zs y]
          constructor
          · rintro (h | h | h)
            · exact Or.inr (Or.inl h)
            · exact Or.inl h
            · exact Or.inr (Or.inr h)
          · rintro (h | h | h)
            · exact Or.inr (Or.inl h)
            · exact Or.inl h
            · exact Or.inr (Or.inr h)

theorem mem_insertSortedNat_self (x : Nat) (l : List Nat) :
    x ∈ insertSortedNat x l := (mem_insertSortedNat x l x).mpr (Or.inl rfl)

theorem mem_insertSortedNat_of_mem (x : Nat) {l : List Nat} {y : Nat}
    (h : y ∈ l) : y ∈ insertSortedNat x l :=
  (mem_insertSortedNat x l y).mpr (Or.inr h)

theorem mem_foldl_insertSortedNat_of_mem :
    ∀ (adds l : List Nat) {y : Nat}, y ∈ l →
      y ∈ adds.foldl (fun tv x => insertSortedNat x tv) l
  | [], _, _, h => h
  | a :: as, l, _, h =>
      mem_foldl_insertSortedNat_of_mem as (insertSortedNat a l)
        (mem_insertSortedNat_of_mem a h)

theorem mem_foldl_insertSortedNat_of_mem_adds :
    ∀ (adds l : List Nat) {y : Nat}, y ∈ adds →
      y ∈ adds.foldl (fun tv x => insertSortedNat x tv) l
  | [], _, _, h => absurd h (by simp)
  | a :: as, l, y, h => by
      rcases List.mem_cons.mp h with h1 | h2
      · subst h1
        exact mem_foldl_insertSortedNat_of_mem as _
          (mem_insertSortedNat_self y l)
      · exact mem_foldl_insertSortedNat_of_mem_adds as _ h2

/-! ## Claim C6 -/

/-- Claim C6: if the restriction to priorities at most `p` contains no
state of priority exactly `p`, then `goodMECs(p)` returns `goodMECs(p-2)`
for `p ≥ 2` and the empty pair `([], {})` for `p = 0`. -/
theorem goodMECs_recursion_cases (M : SolverMDP) (fuel p : Nat)
    (hp : p % 2 = 0)
    (hnone : ∀ i ∈ prioRestriction M p, M.prio i ≠ p) :
    (2 ≤ p → goodMECs M fuel p = goodMECs M fuel (p - 2))
    ∧ (p = 0 → goodMECs M fuel p = some ([], [])) := by
  have hb : hasExactPriority M p = false := by
    rw [hasExactPriority, List.any_eq_false]
    intro i hi
    simpa using hnone i hi
  constructor
  · intro h2
    obtain ⟨q, rfl⟩ : ∃ q, p = q + 2 := ⟨p - 2, by omega⟩
    rw [goodMECs]
    rw [if_neg (by simpa using hp), if_neg (by simp [hb])]
    simp
  · intro h0
    subst h0
    rw [goodMECs, if_neg (by simp [hb])]

/-- Claim C6, witness. -/
theorem goodMECs_recursion_cases_witness :
    (∀ i ∈ prioRestriction mdpLoop 2, mdpLoop.prio i ≠ 2)
    ∧ goodMECs mdpLoop 20 2 = goodMECs mdpLoop 20 0 :=
  ⟨by decide,
   by
    have h := (goodMECs_recursion_cases mdpLoop 20 2 (by decide) (by decide)).1
      (by decide)
    simpa using h⟩

/-! ## Claim C5 -/

theorem cannotReachLoop_subset (pre : Nat → List (Nat × Nat))
    (forbidden : List (Nat × Nat)) :
    ∀ (fuel : Nat) (tv vis res : List Nat),
      cannotReachLoop pre forbidden fuel tv vis = some res →
      (∀ x ∈ tv, x ∈ res) ∧ (∀ x ∈ vis, x ∈ res)
  | 0, tv, vis, res => by
      intro h
      exact absurd h (by simp [cannotReachLoop])
  | fuel + 1, [], vis, res => by
      intro h
      rw [cannotReachLoop] at h
      cases h
      exact ⟨by simp, fun x hx => hx⟩
  | fuel + 1, q :: rest, vis, res => by
      intro h
      rw [cannotReachLoop] at h
      have ih := cannotReachLoop_subset pre forbidden fuel _ _ res h
      constructor
      · intro x hx
        rcases List.mem_cons.mp hx with h1 | h2
        · subst h1
          exact ih.2 x (mem_insertSortedNat_self x vis)
        · exact ih.1 x (mem_foldl_insertSortedNat_of_mem _ rest h2)
      · intro x hx
        exact ih.2 x (mem_insertSortedNat_of_mem q hx)

theorem cannotReach_targets_not_mem (numStates : Nat)
    (pre : Nat → List (Nat × Nat)) (fuel : Nat)
    (targets : List Nat) (forbidden : List (Nat × Nat)) (cr : List Nat)
    (h : cannotReach numStates pre fuel targets forbidden = some cr) :
    ∀ t ∈ targets, t ∉ cr := by
  intro t ht
  rw [cannotReach, Option.bind_eq_some] at h
  obtain ⟨visited, heq, hres⟩ := h
  cases hres
  have hsub := cannotReachLoop_subset pre forbidden fuel _ _ _ heq
  have htv : t ∈ targets.foldl (fun tv x => insertSortedNat x tv) [] :=
    mem_foldl_insertSortedNat_of_mem_adds targets [] ht
  have hvis : t ∈ visited := hsub.1 t htv
  intro hmem
  rw [List.mem_filter] at hmem
  have := hmem.2
  simp at this
  exact this hvis

/-- The accumulator invariant of the predecessor fold: `R`, `U` and the
removal frontier never contain a target. -/
theorem asrPreStep_targets_free (targets : List Nat)
    (acc : List Nat × List Nat × List Nat × List (Nat × Nat)) (ta : Nat × Nat)
    (hR : ∀ x ∈ acc.1, x ∉ targets) (hU : ∀ x ∈ acc.2.1, x ∉ targets) :
    (∀ x ∈ (asrPreStep targets acc ta).1, x ∉ targets)
    ∧ (∀ x ∈ (asrPreStep targets acc ta).2.1, x ∉ targets) := by
  rw [asrPreStep]
  by_cases h1 : ta.1 ∈ acc.2.1
  · rw [if_pos h1]; exact ⟨hR, hU⟩
  · rw [if_neg h1]
    by_cases h2 : ((if ta ∈ acc.2.2.2 then acc.2.2.1
        else acc.2.2.1.set ta.1 ((acc.2.2.1.getD ta.1 0) - 1)).getD ta.1 0 = 0
        ∧ ta.1 ∉ targets)
    · rw [if_pos h2]
      refine ⟨?_, ?_⟩
      · intro x hx
        rcases (mem_insertSortedNat ta.1 acc.1 x).mp hx with h3 | h3
        · subst h3; exact h2.2
        · exact hR x h3
      · intro x hx
        rcases (mem_insertSortedNat ta.1 acc.2.1 x).mp hx with h3 | h3
        · subst h3; exact h2.2
        · exact hU x h3
    · rw [if_neg h2]
      exact ⟨hR, hU⟩

theorem asrPreFold_targets_free (targets : List Nat) :
    ∀ (l : List (Nat × Nat))
      (acc : List Nat × List Nat × List Nat × List (Nat × Nat)),
      (∀ x ∈ acc.1, x ∉ targets) → (∀ x ∈ acc.2.1, x ∉ targets) →
      (∀ x ∈ (l.foldl (asrPreStep targets) acc).1, x ∉ targets)
      ∧ (∀ x ∈ (l.foldl (asrPreStep targets) acc).2.1, x ∉ targets)
  | [], acc, hR, hU => ⟨hR, hU⟩
  | ta :: rest, acc, hR, hU => by
      have step := asrPreStep_targets_free targets acc ta hR hU
      exact asrPreFold_targets_free targets rest _ step.1 step.2

theorem asrInner_targets_free (targets : List Nat) :
    ∀ (fuel : Nat) (R U : List Nat) (pre : Nat → List (Nat × Nat))
      (act removed : List Nat) (rp : List (Nat × Nat)) res,
      asrInner targets fuel R U pre act removed rp = some res →
      (∀ x ∈ R, x ∉ targets) → (∀ x ∈ U, x ∉ targets) →
      (∀ x ∈ removed, x ∉ targets) →
      (∀ x ∈ res.1, x ∉ targets) ∧ (∀ x ∈ res.2.2.2.1, x ∉ targets)
  | 0, R, U, pre, act, removed, rp, res => by
      intro h
      exact absurd h (by simp [asrInner])
  | fuel + 1, [], U, pre, act, removed, rp, res => by
      intro h _ hU hrem
      rw [asrInner] at h
      cases h
      exact ⟨hU, hrem⟩
  | fuel + 1, u :: rest, U, pre, act, removed, rp, res => by
      intro h hR hU hrem
      rw [asrInner] at h
      have hRrest : ∀ x ∈ rest, x ∉ targets :=
        fun x hx => hR x (List.mem_cons_of_mem u hx)
      have hfold := asrPreFold_targets_free targets (pre u) (rest, U, act, rp)
        hRrest hU
      refine asrInner_targets_free targets fuel _ _ _ _ _ _ res h hfold.1 hfold.2 ?_
      intro x hx
      rcases List.mem_append.mp hx with h1 | h1
      · exact hrem x h1
      · rw [List.mem_singleton] at h1
        subst h1
        exact hR x (by simp)

theorem asrOuter_targets_free (numStates : Nat) (targets : List Nat) :
    ∀ (fuel : Nat) (U : List Nat) (pre : Nat → List (Nat × Nat))
      (act removed : List Nat) (rp : List (Nat × Nat)) (res : List Nat),
      asrOuter numStates targets fuel U pre act removed rp = some res →
      (∀ x ∈ U, x ∉ targets) → (∀ x ∈ removed, x ∉ targets) →
      ∀ x ∈ res, x ∉ targets
  | 0, U, pre, act, removed, rp, res => by
      intro h
      exact absurd h (by simp [asrOuter])
  | fuel + 1, U, pre, act, removed, rp, res => by
      intro h hU hrem
      rw [asrOuter, Option.bind_eq_some] at h
      obtain ⟨st, hin, h⟩ := h
      rw [Option.bind_eq_some] at h
      obtain ⟨cr, hcr, h⟩ := h
      have hst := asrInner_targets_free targets fuel U U pre act removed rp
        st hin hU hU hrem
      have hcrt := cannotReach_targets_not_mem numStates st.2.1 fuel
        targets st.2.2.2.2 cr hcr
      by_cases hU2 : cr.filter (fun i => decide (i ∉ st.1)) = []
      · rw [if_pos hU2] at h
        cases h
        exact hst.2
      · rw [if_neg hU2] at h
        refine asrOuter_targets_free numStates targets fuel _ _ _ _ _
          res h ?_ hst.2
        intro x hx
        have hxcr : x ∈ cr := (List.mem_filter.mp hx).1
        intro hxt
        exact hcrt x hxt hxcr

/-- Claim C5: the list returned by `almostSureReach(U)` contains every
element of the target set `U`; targets are never removed by the
fixed-point iteration. -/
theorem almostSureReach_contains_targets (M : SolverMDP) (fuel : Nat)
    (targets res : List Nat) (h : almostSureReach M fuel targets = some res)
    (ht : ∀ t ∈ targets, t < M.numStates) : ∀ t ∈ targets, t ∈ res := by
  intro t htin
  rw [almostSureReach, Option.bind_eq_some] at h
  obtain ⟨U0, hcr, h⟩ := h
  rw [Option.bind_eq_some] at h
  obtain ⟨removed, hout, h⟩ := h
  cases h
  have hU0 : ∀ x ∈ U0, x ∉ targets := by
    intro x hx hxt
    exact cannotReach_targets_not_mem M.numStates _ fuel targets [] U0
      hcr x hxt hx
  have hremfree := asrOuter_targets_free M.numStates targets fuel U0 _ _
    [] [] removed hout hU0 (by simp)
  rw [List.mem_filter]
  refine ⟨by simpa using ht t htin, ?_⟩
  simp only [decide_eq_true_eq]
  intro hmem
  exact hremfree t hmem htin

/-- Claim C5, witness. -/
theorem almostSureReach_contains_targets_witness :
    almostSureReach mdpChain 20 [1] = some [0, 1]
    ∧ (∀ t ∈ [1], t < mdpChain.numStates)
    ∧ (1 : Nat) ∈ [0, 1] :=
  ⟨by decide, by decide,
   almostSureReach_contains_targets mdpChain 20 [1] [0, 1] (by decide)
     (by decide) 1 (by decide)⟩

/-! ## Claim C4 -/

theorem foldl_max_map_prio (M : SolverMDP) (mec : List Nat) :
    mec.foldl (fun m o => max m (M.prio o)) 0 = (mec.map M.prio).foldl max 0 := by
  rw [List.foldl_map]

theorem removalLoop_mec_subset (pre : Nat → List (Nat × Nat)) (lastC : List Nat) :
    ∀ (fuel : Nat) (rem mec : List Nat) (act : List (List Nat))
      (r : List Nat × List (List Nat)),
      removalLoop pre lastC fuel rem mec act = some r → ∀ x ∈ r.1, x ∈ mec
  | 0, rem, mec, act, r => by
      intro h
      exact absurd h (by simp [removalLoop])
  | fuel + 1, [], mec, act, r => by
      intro h
      rw [removalLoop] at h
      cases h
      exact fun x hx => hx
  | fuel + 1, s :: rest, mec, act, r => by
      intro h
      rw [removalLoop] at h
      intro x hx
      have ih := removalLoop_mec_subset pre lastC fuel _ _ _ r h x hx
      exact List.mem_of_mem_erase ih

theorem mecResults_good (M : SolverMDP) (p : Nat) :
    ∀ (SCCs : List (List Nat)) (acc : List (List Nat)) (mec2 : List Nat),
      (∀ s ∈ mec2, M.prio s ≤ p) → (∀ x ∈ acc, GoodMec M p x) →
      ∀ x ∈ SCCs.foldl (mecResultStep M p mec2) acc, GoodMec M p x
  | [], acc, mec2, hle, hacc => hacc
  | C :: rest, acc, mec2, hle, hacc => by
      rw [List.foldl_cons]
      refine mecResults_good M p rest _ mec2 hle ?_
      intro x hx
      rw [mecResultStep] at hx
      by_cases h1 : mec2.filter (fun s => decide (s ∈ C)) = []
      · rw [if_pos h1] at hx
        exact hacc x hx
      · rw [if_neg h1] at hx
        by_cases h2 : p ≠ 0 ∧
            (mec2.filter (fun s => decide (s ∈ C))).foldl
              (fun m o => max m (M.prio o)) 0 < p
        · rw [if_pos h2] at hx
          exact hacc x hx
        · rw [if_neg h2] at hx
          rcases List.mem_append.mp hx with h3 | h3
          · exact hacc x h3
          · rw [List.mem_singleton] at h3
            subst h3
            refine ⟨h1, ?_, ?_⟩
            · intro s hs
              exact hle s (List.mem_filter.mp hs).1
            · intro hp0
              rcases not_and_or.mp h2 with h4 | h4
              · exact absurd hp0 (by simpa using h4)
              · exact Nat.le_of_not_lt h4

theorem mecResults_good_apply (M : SolverMDP) (p : Nat) (SCCs : List (List Nat))
    (mec2 : List Nat) (hle : ∀ s ∈ mec2, M.prio s ≤ p) :
    ∀ x ∈ mecResults M p SCCs mec2, GoodMec M p x := by
  rw [mecResults]
  exact mecResults_good M p SCCs [] mec2 hle (by simp)

theorem refineList_good (M : SolverMDP) (pre : Nat → List (Nat × Nat))
    (p fuel : Nat) :
    ∀ (mecs newMECs act : List (List Nat))
      (r : List (List Nat) × List (List Nat)),
      refineList M pre p fuel mecs newMECs act = some r →
      (∀ mec ∈ mecs, ∀ s ∈ mec, M.prio s ≤ p) →
      (∀ x ∈ newMECs, GoodMec M p x) →
      ∀ x ∈ r.1, GoodMec M p x
  | [], newMECs, act, r => by
      intro h hmecs hnew
      rw [refineList] at h
      cases h
      exact hnew
  | mec :: rest, newMECs, act, r => by
      intro h hmecs hnew
      rw [refineList, Option.bind_eq_some] at h
      obtain ⟨rm, hrm, hrec⟩ := h
      rw [refineMec, Option.bind_eq_some] at hrm
      obtain ⟨SCCs, _, hrm⟩ := hrm
      rw [Option.bind_eq_some] at hrm
      obtain ⟨rr, hrem, hrm⟩ := hrm
      cases hrm
      have hsub : ∀ x ∈ rr.1, x ∈ mec :=
        removalLoop_mec_subset pre (SCCs.getLastD []) fuel _ _ _ rr hrem
      refine refineList_good M pre p fuel rest _ _ r hrec
        (fun m hm => hmecs m (List.mem_cons_of_mem _ hm)) ?_
      intro x hx
      rcases List.mem_append.mp hx with h1 | h1
      · exact hnew x h1
      · refine mecResults_good_apply M p SCCs rr.1 ?_ x h1
        intro s hs
        exact hmecs mec (by simp) s (hsub s hs)

theorem mecLoop_good (M : SolverMDP) (pre : Nat → List (Nat × Nat))
    (p tfuel : Nat) :
    ∀ (wfuel : Nat) (MECs newMECs act new_act : List (List Nat))
      (r : List (List Nat) × List (List Nat)),
      mecLoop M pre p tfuel wfuel MECs newMECs act new_act = some r →
      (∀ x ∈ MECs, GoodMec M p x) → (∀ x ∈ newMECs, GoodMec M p x) →
      ∀ x ∈ r.1, GoodMec M p x
  | 0, MECs, newMECs, act, new_act, r => by
      intro h
      exact absurd h (by simp [mecLoop])
  | wfuel + 1, MECs, newMECs, act, new_act, r => by
      intro h hM hnew
      rw [mecLoop] at h
      by_cases hc : MECs = newMECs ∧ act = new_act
      · rw [if_pos hc] at h
        cases h
        exact hM
      · rw [if_neg hc, Option.bind_eq_some] at h
        obtain ⟨r2, hr2, hrec⟩ := h
        refine mecLoop_good M pre p tfuel wfuel _ _ _ _ r hrec hnew ?_
        exact refineList_good M pre p tfuel newMECs [] act r2 hr2
          (fun m hm => (hnew m hm).2.1) (by simp)

/-- Claim C4 (amended): provided the restriction to priorities at most `p`
contains a state of priority exactly `p` (the non-recursive case of
`goodMECs`), every MEC returned by `goodMECs(p)` is non-empty, contains
only states of priority at most `p`, and has top priority exactly `p`.
(In the recursive case, `goodMECs(p)` returns `goodMECs(p-2)`, whose MECs
have top priority below `p`, so top-priority exactness fails as stated.) -/
theorem goodMECs_top_priority_exact (M : SolverMDP) (fuel p : Nat)
    (hp : p % 2 = 0) (hex : ∃ i ∈ prioRestriction M p, M.prio i = p)
    (mecs : List (List Nat)) (strat : List (Nat × List Nat))
    (h : goodMECs M fuel p = some (mecs, strat)) :
    ∀ mec ∈ mecs, mec ≠ [] ∧ (∀ s ∈ mec, M.prio s ≤ p)
      ∧ mec.foldl (fun m o => max m (M.prio o)) 0 = p := by
  have hb : hasExactPriority M p = true := by
    rw [hasExactPriority, List.any_eq_true]
    obtain ⟨i, hi, hip⟩ := hex
    exact ⟨i, hi, by simpa using hip⟩
  have hrun : runMecLoop M fuel p = some (mecs, strat) := by
    cases p with
    | zero => rw [goodMECs, if_pos hb] at h; exact h
    | succ p1 =>
      cases p1 with
      | zero => exact absurd hp (by simp)
      | succ p2 =>
          rw [goodMECs, if_neg (by omega), if_pos hb] at h
          exact h
  rw [runMecLoop, Option.bind_eq_some] at hrun
  obtain ⟨r, hloop, hsome⟩ := hrun
  have hmecs : mecs = r.1 := by
    cases hsome
    rfl
  subst hmecs
  have hrestr : GoodMec M p (prioRestriction M p) := by
    obtain ⟨i, hi, hip⟩ := hex
    refine ⟨List.ne_nil_of_mem hi, ?_, ?_⟩
    · intro s hs
      have := (List.mem_filter.mp hs).2
      simpa using this
    · intro _
      calc p = M.prio i := hip.symm
        _ ≤ (prioRestriction M p).foldl (fun m o => max m (M.prio o)) 0 := by
            rw [foldl_max_map_prio]
            exact mem_le_foldl_max _ 0 _ (List.mem_map_of_mem M.prio hi)
  have hgood := mecLoop_good M (resetPre M.numStates M.numActions M.trans) p
    fuel fuel [] [prioRestriction M p] _ _ r hloop (by simp) ?_
  · intro mec hmec
    obtain ⟨hne, hle, hge⟩ := hgood mec hmec
    refine ⟨hne, hle, ?_⟩
    have hub : mec.foldl (fun m o => max m (M.prio o)) 0 ≤ p := by
      rw [foldl_max_map_prio]
      refine foldl_max_le _ 0 p (Nat.zero_le p) ?_
      intro x hx
      obtain ⟨s, hs, rfl⟩ := List.mem_map.mp hx
      exact hle s hs
    rcases Nat.eq_zero_or_pos p with h0 | h0
    · subst h0
      exact Nat.le_antisymm hub (Nat.zero_le _)
    · exact Nat.le_antisymm hub (hge (Nat.pos_iff_ne_zero.mp h0))
  · intro x hx
    rw [List.mem_singleton] at hx
    subst hx
    exact hrestr

/-- Claim C4, counterexample: `goodMECs(2)` on an MDP whose only state has
priority `0` returns (through the recursion to priority `0`) a MEC whose
top priority is `0`, not `2`. -/
theorem goodMECs_recursion_loses_exactness_counterexample :
    goodMECs mdpLoop 20 2 = some ([[0]], [(0, [0])])
    ∧ [0].foldl (fun m o => max m (mdpLoop.prio o)) 0 = 0
    ∧ ¬ ([0].foldl (fun m o => max m (mdpLoop.prio o)) 0 = 2) :=
  ⟨by decide, by decide, by decide⟩

/-- Claim C4, witness for the amended theorem. -/
theorem goodMECs_top_priority_exact_witness :
    goodMECs mdpTwo 20 2 = some ([[1]], [(0, [0]), (1, [0])])
    ∧ ([1] ≠ [] ∧ (∀ s ∈ [1], mdpTwo.prio s ≤ 2)
        ∧ [1].foldl (fun m o => max m (mdpTwo.prio o)) 0 = 2) :=
  ⟨by decide,
   goodMECs_top_priority_exact mdpTwo 20 2 (by decide)
     ⟨1, by decide, by decide⟩ [[1]] [(0, [0]), (1, [0])] (by decide)
     [1] (by decide)⟩

/-! ## Claim C2 -/

/-- Claim C2 (amended): for the triple returned by `almostSureWin`, the
reachability strategy assigns to every `B ∈ R` exactly the actions all of
whose successors lie in `R`, and every assigned action keeps all its
successors inside `R`.  (The claimed inclusion in the enabled actions
fails: an action with an empty successor list vacuously satisfies the
filter and is kept, so `σ_R(B)` may contain disabled actions.) -/
theorem almostSureWin_reachStrat (M : SolverMDP) (fuel mp : Nat)
    (r : List Nat) (rs : List (Nat × List Nat))
    (ms : List (List (Nat × List Nat)))
    (h : almostSureWin M fuel mp = some (r, rs, ms)) :
    (∀ B ∈ r, (B, (List.range M.numActions).filter
        (fun a => (M.trans B a).all (fun q => decide (q ∈ r)))) ∈ rs)
    ∧ ∀ sa ∈ rs, ∀ a ∈ sa.2, ∀ q ∈ M.trans sa.1 a, q ∈ r := by
  rw [almostSureWin, Option.bind_eq_some] at h
  obtain ⟨levels, _, h⟩ := h
  rw [Option.bind_eq_some] at h
  obtain ⟨r0, _, h⟩ := h
  simp only [Option.some.injEq, Prod.mk.injEq] at h
  obtain ⟨h1, h2, h3⟩ := h
  subst h1
  subst h2
  subst h3
  constructor
  · intro B hB
    rw [mkReachStrat]
    exact List.mem_map_of_mem _ hB
  · intro sa hsa a ha q hq
    rw [mkReachStrat, List.mem_map] at hsa
    obtain ⟨pp, hpp, rfl⟩ := hsa
    rw [List.mem_filter] at ha
    have hall := ha.2
    rw [List.all_eq_true] at hall
    simpa using hall q hq

/-- Claim C2, counterexample: `almostSureWin` on `mdpC2` returns the
winning region `{0}` with `σ_R(0) = {0, 1}`, yet action `1` has no
successors at state `0` — it is not an enabled action, refuting
`σ_R(B) ⊆ actions enabled at B`. -/
theorem reachStrat_disabled_action_counterexample :
    almostSureWin mdpC2 30 2
      = some ([0], [(0, [0, 1])], [[(0, [0, 1])], [(0, [0, 1])]])
    ∧ (1 : Nat) ∈ [0, 1]
    ∧ mdpC2.trans 0 1 = [] :=
  ⟨by decide, by decide, by decide⟩

/-- Claim C2, witness for the amended theorem. -/
theorem almostSureWin_reachStrat_witness :
    almostSureWin mdpLoop 30 2
      = some ([0], [(0, [0])], [[(0, [0])], [(0, [0])]])
    ∧ ((0 : Nat), (List.range mdpLoop.numActions).filter
        (fun a => (mdpLoop.trans 0 a).all (fun q => decide (q ∈ [0])))) ∈
        [((0 : Nat), [0])]
    ∧ (∀ q ∈ mdpLoop.trans 0 0, q ∈ [0]) :=
  ⟨by decide,
   (almostSureWin_reachStrat mdpLoop 30 2 [0] [(0, [0])]
     [[(0, [0])], [(0, [0])]] (by decide)).1 0 (by decide),
   (almostSureWin_reachStrat mdpLoop 30 2 [0] [(0, [0])]
     [[(0, [0])], [(0, [0])]] (by decide)).2 (0, [0]) (by decide) 0 (by decide)⟩

/-! ## Claim C10: Tarjan groundwork -/

theorem StepPost.rfl (σ : TarjanSt) : StepPost σ σ where
  stackExt := ⟨[], by simp⟩
  sccsExt := ⟨[], by simp⟩
  stIdxPres := fun _ _ h => h
  idxMono := le_refl _
  freshGe := fun w v h1 h2 => absurd h2 (by rw [h1]; simp)

theorem StepPost.trans {σ1 σ2 σ3 : TarjanSt}
    (a : StepPost σ1 σ2) (b : StepPost σ2 σ3) : StepPost σ1 σ3 where
  stackExt := by
    obtain ⟨e1, h1⟩ := a.stackExt
    obtain ⟨e2, h2⟩ := b.stackExt
    exact ⟨e2 ++ e1, by rw [h2, h1, List.append_assoc]⟩
  sccsExt := by
    obtain ⟨m1, h1⟩ := a.sccsExt
    obtain ⟨m2, h2⟩ := b.sccsExt
    exact ⟨m1 ++ m2, by rw [h2, h1, List.append_assoc]⟩
  stIdxPres := fun w v h => b.stIdxPres w v (a.stIdxPres w v h)
  idxMono := le_trans a.idxMono b.idxMono
  freshGe := by
    intro w v h1 h2
    cases hm : σ2.stIdx w with
    | none => exact le_trans a.idxMono (b.freshGe w v hm h2)
    | some u =>
        have h3 := b.stIdxPres w u hm
        rw [h3] at h2
        injection h2 with h4
        rw [← h4]
        exact a.freshGe w u h1 hm

theorem TInv.stackVisited {univ : List Nat} {σ : TarjanSt}
    (h : TInv univ σ) {w : Nat} (hw : w ∈ σ.stack) : σ.stIdx w ≠ none :=
  (h.visitedIff w).mp (Or.inl hw)

theorem TInv.stackNodup {univ : List Nat} {σ : TarjanSt} (h : TInv univ σ) :
    σ.stack.Nodup := (List.nodup_append.mp h.bigNodup).1

theorem TInv.stackFlatDisjoint {univ : List Nat} {σ : TarjanSt}
    (h : TInv univ σ) {w : Nat} (hw : w ∈ σ.stack)
    (hw2 : w ∈ σ.sccs.flatten) : False :=
  (List.nodup_append.mp h.bigNodup).2.2 hw hw2

theorem stackBound_mono {univ : List Nat} {σ σ2 : TarjanSt} {B : Nat}
    (hI : TInv univ σ) (hI2 : TInv univ σ2) (hs : StepPost σ σ2)
    (hB : StackBound σ B) : StackBound σ2 B := by
  obtain ⟨ext, hext⟩ := hs.stackExt
  refine ⟨le_trans hB.1 hs.idxMono, ?_⟩
  intro w hw v hv
  rw [hext] at hw
  rcases List.mem_append.mp hw with hwe | hws
  · by_cases hvis : σ.stIdx w = none
    · exact le_trans hB.1 (hs.freshGe w v hvis hv)
    · exfalso
      rcases (hI.visitedIff w).mpr hvis with h1 | h1
      · have hnd : σ2.stack.Nodup := hI2.stackNodup
        rw [hext] at hnd
        exact (List.nodup_append.mp hnd).2.2 hwe h1
      · obtain ⟨more, hm⟩ := hs.sccsExt
        refine hI2.stackFlatDisjoint (w := w) ?_ ?_
        · rw [hext]; exact List.mem_append.mpr (Or.inl hwe)
        · rw [hm, List.flatten_append]
          exact List.mem_append.mpr (Or.inl h1)
  · have hvisited : σ.stIdx w ≠ none := hI.stackVisited hws
    cases hvo : σ.stIdx w with
    | none => exact absurd hvo hvisited
    | some u =>
        have hpres := hs.stIdxPres w u hvo
        rw [hv] at hpres
        cases hpres
        exact hB.2 w hws v hvo

theorem tMark_notMemStack {univ : List Nat} {σ : TarjanSt} {q : Nat}
    (hI : TInv univ σ) (hq : σ.stIdx q = none) : q ∉ σ.stack := by
  intro hmem
  exact hI.stackVisited hmem hq

theorem tMark_notMemFlat {univ : List Nat} {σ : TarjanSt} {q : Nat}
    (hI : TInv univ σ) (hq : σ.stIdx q = none) : q ∉ σ.sccs.flatten := by
  intro hmem
  exact ((hI.visitedIff q).mp (Or.inr hmem)) hq

theorem tMark_inv {univ : List Nat} {σ : TarjanSt} {q : Nat}
    (hI : TInv univ σ) (hq : σ.stIdx q = none) (hu : q ∈ univ) :
    TInv univ (tMark q σ) := by
  refine ⟨?_, ?_, ?_, ?_, ?_, ?_⟩
  · show (q :: σ.stack ++ σ.sccs.flatten).Nodup
    rw [List.cons_append, List.nodup_cons]
    refine ⟨?_, hI.bigNodup⟩
    intro hmem
    rcases List.mem_append.mp hmem with h1 | h1
    · exact tMark_notMemStack hI hq h1
    · exact tMark_notMemFlat hI hq h1
  · intro w
    show (if w = q then true else σ.onStack w) = true ↔ w ∈ q :: σ.stack
    by_cases hw : w = q
    · subst hw; simp
    · rw [if_neg hw, List.mem_cons]
      rw [hI.onStackIff w]
      simp [hw]
  · intro w
    show (w ∈ q :: σ.stack ∨ w ∈ σ.sccs.flatten) ↔
      (if w = q then some σ.idx else σ.stIdx w) ≠ none
    by_cases hw : w = q
    · subst hw; simp
    · rw [if_neg hw, List.mem_cons, ← hI.visitedIff w]
      simp [hw]
  · intro w
    show (if w = q then some σ.idx else σ.stIdx w) ≠ none → w ∈ univ
    by_cases hw : w = q
    · subst hw; intro _; exact hu
    · rw [if_neg hw]; exact hI.visitedUniv w
  · intro w v
    show (if w = q then some σ.idx else σ.stIdx w) = some v → v < σ.idx + 1
    by_cases hw : w = q
    · rw [if_pos hw]
      intro h
      cases h
      exact Nat.lt_succ_self _
    · rw [if_neg hw]
      intro h
      exact Nat.lt_succ_of_lt (hI.idxBound w v h)
  · intro w v
    show (if w = q then some σ.idx else σ.stIdx w) = some v →
      (if w = q then σ.idx else σ.stLow w) ≤ v
    by_cases hw : w = q
    · rw [if_pos hw, if_pos hw]
      intro h
      cases h
      exact le_refl _
    · rw [if_neg hw, if_neg hw]
      exact hI.lowLe w v

theorem tMark_step {σ : TarjanSt} {q : Nat} (hq : σ.stIdx q = none) :
    StepPost σ (tMark q σ) where
  stackExt := ⟨[q], rfl⟩
  sccsExt := ⟨[], by simp [tMark]⟩
  stIdxPres := by
    intro w v h
    show (if w = q then some σ.idx else σ.stIdx w) = some v
    by_cases hw : w = q
    · subst hw; rw [hq] at h; exact absurd h (by simp)
    · rw [if_neg hw]; exact h
  idxMono := Nat.le_succ _
  freshGe := by
    intro w v h1 h2
    show σ.idx ≤ v
    by_cases hw : w = q
    · subst hw
      have h3 : (if w = w then some σ.idx else σ.stIdx w) = some v := h2
      rw [if_pos rfl] at h3
      cases h3
      exact le_refl _
    · have : (if w = q then some σ.idx else σ.stIdx w) = some v := h2
      rw [if_neg hw] at this
      rw [h1] at this
      exact absurd this (by simp)

theorem tMark_bound {σ : TarjanSt} {q : Nat} {B : Nat}
    (hB : StackBound σ B) (hq : σ.stIdx q = none) (hnm : q ∉ σ.stack) :
    StackBound (tMark q σ) B := by
  refine ⟨le_trans hB.1 (Nat.le_succ _), ?_⟩
  intro w hw v hv
  have hv2 : (if w = q then some σ.idx else σ.stIdx w) = some v := hv
  rcases List.mem_cons.mp hw with h1 | h1
  · subst h1
    rw [if_pos rfl] at hv2
    cases hv2
    exact hB.1
  · have hwq : w ≠ q := fun h => hnm (h ▸ h1)
    rw [if_neg hwq] at hv2
    exact hB.2 w h1 v hv2

theorem tSuccs_subset (M : SolverMDP) (states : List Nat)
    (actions : Nat → List Nat) (q : Nat) :
    ∀ d ∈ tSuccs M states actions q, d ∈ states := by
  intro d hd
  rw [tSuccs, List.mem_insertionSort, List.mem_dedup, List.mem_flatMap] at hd
  obtain ⟨a, _, hd⟩ := hd
  have := (List.mem_filter.mp hd).2
  simpa using this

theorem popLoop_spec (q : Nat) :
    ∀ (l rest : List Nat) (onStack : Nat → Bool) (scc : List Nat), q ∉ l →
      (popLoop q (l ++ q :: rest) onStack scc).1 = rest
      ∧ (popLoop q (l ++ q :: rest) onStack scc).2.2 = scc ++ l ++ [q]
      ∧ ∀ x, (popLoop q (l ++ q :: rest) onStack scc).2.1 x
          = if x ∈ l ++ [q] then false else onStack x
  | [], rest, onStack, scc, _ => by
      rw [List.nil_append, popLoop, if_pos rfl]
      refine ⟨rfl, by simp, ?_⟩
      intro x
      by_cases hx : x = q
      · subst hx; simp
      · simp [hx]
  | w :: l, rest, onStack, scc, hq => by
      have hwq : w ≠ q := by
        intro h
        exact hq (h ▸ List.mem_cons_self w l)
      have hql : q ∉ l := fun h => hq (List.mem_cons_of_mem w h)
      rw [List.cons_append, popLoop, if_neg hwq]
      obtain ⟨h1, h2, h3⟩ := popLoop_spec q l rest
        (fun x => if x = w then false else onStack x) (scc ++ [w]) hql
      refine ⟨h1, ?_, ?_⟩
      · rw [h2]
        simp
      · intro x
        rw [h3 x]
        by_cases hx1 : x ∈ l ++ [q]
        · rw [if_pos hx1, if_pos (by
            rcases List.mem_append.mp hx1 with h | h
            · exact List.mem_append.mpr (Or.inl (List.mem_cons_of_mem w h))
            · exact List.mem_append.mpr (Or.inr h))]
        · rw [if_neg hx1]
          by_cases hx2 : x = w
          · subst hx2
            rw [if_pos rfl, if_pos (List.mem_append.mpr
              (Or.inl (List.mem_cons_self x l)))]
          · rw [if_neg hx2, if_neg (by
              intro hmem
              rcases List.mem_append.mp hmem with h | h
              · rcases List.mem_cons.mp h with h4 | h4
                · exact hx2 h4
                · exact hx1 (List.mem_append.mpr (Or.inl h4))
              · exact hx1 (List.mem_append.mpr (Or.inr h)))]

theorem updLowQ_stack (q v : Nat) (σ : TarjanSt) :
    (updLowQ q v σ).stack = σ.stack := rfl

theorem updLowQ_stLow_self (q v : Nat) (σ : TarjanSt) :
    (updLowQ q v σ).stLow q = v := by
  show (if q = q then v else σ.stLow q) = v
  rw [if_pos rfl]

theorem updLowQ_stLow_ne (q v : Nat) (σ : TarjanSt) {w : Nat} (hw : w ≠ q) :
    (updLowQ q v σ).stLow w = σ.stLow w := by
  show (if w = q then v else σ.stLow w) = σ.stLow w
  rw [if_neg hw]

theorem updLowQ_step (q v : Nat) (σ : TarjanSt) : StepPost σ (updLowQ q v σ) where
  stackExt := ⟨[], by simp [updLowQ]⟩
  sccsExt := ⟨[], by simp [updLowQ]⟩
  stIdxPres := fun _ _ h => h
  idxMono := le_refl _
  freshGe := by
    intro w u h1 h2
    have h3 : σ.stIdx w = some u := h2
    rw [h1] at h3
    exact absurd h3 (by simp)

theorem updLowQ_inv {univ : List Nat} {σ : TarjanSt} {q v : Nat}
    (hI : TInv univ σ) (hv : ∀ u, σ.stIdx q = some u → v ≤ u) :
    TInv univ (updLowQ q v σ) := by
  refine ⟨hI.bigNodup, hI.onStackIff, hI.visitedIff, hI.visitedUniv,
    hI.idxBound, ?_⟩
  intro w u hw
  by_cases hwq : w = q
  · subst hwq
    rw [updLowQ_stLow_self]
    exact hv u hw
  · rw [updLowQ_stLow_ne q v σ hwq]
    exact hI.lowLe w u hw

theorem updLowQ_bound {σ : TarjanSt} {q v B : Nat} (hB : StackBound σ B) :
    StackBound (updLowQ q v σ) B := hB

/-- The successor-loop postcondition, by induction on the successor list,
assuming the recursive visit `g` meets its postcondition. -/
theorem tVisitListAux_post (univ : List Nat)
    (g : Nat → TarjanSt → Option TarjanSt)
    (hg : ∀ dst τ τ2, τ.stIdx dst = none → dst ∈ univ → TInv univ τ →
      g dst τ = some τ2 → VisitPost univ dst τ τ2) :
    ∀ (l : List Nat) (q : Nat) (σ σ2 : TarjanSt),
      (∀ d ∈ l, d ∈ univ) → q ∈ σ.stack → TInv univ σ →
      tVisitListAux g q l σ = some σ2 → ListPost univ q σ σ2
  | [], q, σ, σ2, _, _, hI => by
      intro h
      rw [tVisitListAux] at h
      cases h
      exact ⟨hI, StepPost.rfl σ, fun _ _ _ => rfl, fun B _ => min_le_left _ _⟩
  | dst :: rest, q, σ, σ2, hl, hq, hI => by
      intro h
      rw [tVisitListAux] at h
      have hqvis : σ.stIdx q ≠ none := hI.stackVisited hq
      split at h
      · -- unvisited successor: recursive visit
        rename_i heq
        obtain ⟨σc, hgd, h⟩ := Option.bind_eq_some.mp h
        have hV := hg dst σ σc heq (hl dst (by simp)) hI hgd
        have hIc := hV.inv
        have hIu : TInv univ
            (updLowQ q (min (σc.stLow dst) (σc.stLow q)) σc) := by
          refine updLowQ_inv hIc ?_
          intro u hu
          exact le_trans (min_le_right _ _) (hIc.lowLe q u hu)
        have hqc : q ∈ σc.stack := by
          obtain ⟨ext, hext⟩ := hV.step.stackExt
          rw [hext]
          exact List.mem_append.mpr (Or.inr hq)
        have ih := tVisitListAux_post univ g hg rest q
          (updLowQ q (min (σc.stLow dst) (σc.stLow q)) σc) σ2
          (fun d hd2 => hl d (List.mem_cons_of_mem _ hd2)) hqc hIu h
        have h4 : σc.stLow q = σ.stLow q := hV.lowPres q hqvis
        refine ⟨ih.inv, ((hV.step).trans (updLowQ_step _ _ _)).trans ih.step,
          ?_, ?_⟩
        · intro w hw hvw
          have h1 : σc.stIdx w ≠ none := by
            cases hvo : σ.stIdx w with
            | none => exact absurd hvo hvw
            | some u =>
                rw [hV.step.stIdxPres w u hvo]
                simp
          have h2 := ih.lowPres w hw h1
          rw [h2, updLowQ_stLow_ne _ _ _ hw]
          exact hV.lowPres w hvw
        · intro B hB
          have hBc : StackBound σc B := stackBound_mono hI hIc hV.step hB
          have h3 := ih.lowBound B (updLowQ_bound hBc)
          rw [updLowQ_stLow_self, h4] at h3
          have h5 : B ≤ σc.stLow dst := hV.lowBound B hB
          refine le_trans ?_ h3
          refine le_min (le_min ?_ (min_le_left _ _)) (min_le_right _ _)
          exact le_trans (min_le_right _ _) h5
      · -- visited successor
        rename_i d heq
        by_cases hon : σ.onStack dst = true
        · rw [if_pos hon] at h
          have hIu : TInv univ (updLowQ q (min d (σ.stLow q)) σ) := by
            refine updLowQ_inv hI ?_
            intro u hu
            exact le_trans (min_le_right _ _) (hI.lowLe q u hu)
          have ih := tVisitListAux_post univ g hg rest q
            (updLowQ q (min d (σ.stLow q)) σ) σ2
            (fun d2 hd2 => hl d2 (List.mem_cons_of_mem _ hd2)) hq hIu h
          refine ⟨ih.inv, (updLowQ_step _ _ _).trans ih.step, ?_, ?_⟩
          · intro w hw hvw
            have h2 := ih.lowPres w hw hvw
            rw [h2, updLowQ_stLow_ne _ _ _ hw]
          · intro B hB
            have h3 := ih.lowBound B (updLowQ_bound hB)
            rw [updLowQ_stLow_self] at h3
            have hdst : dst ∈ σ.stack := (hI.onStackIff dst).mp hon
            have h5 : B ≤ d := hB.2 dst hdst d heq
            refine le_trans ?_ h3
            refine le_min (le_min ?_ (min_le_left _ _)) (min_le_right _ _)
            exact le_trans (min_le_right _ _) h5
        · rw [if_neg hon] at h
          exact tVisitListAux_post univ g hg rest q σ σ2
            (fun d2 hd2 => hl d2 (List.mem_cons_of_mem _ hd2)) hq hI h

/-- The postcondition of `_strongConnect` (`tVisit`), by induction on the
fuel. -/
theorem tVisit_post (M : SolverMDP) (states : List Nat)
    (actions : Nat → List Nat) :
    ∀ (fuel : Nat) (q : Nat) (σ σ2 : TarjanSt),
      σ.stIdx q = none → q ∈ states → TInv states σ →
      tVisit M states actions fuel q σ = some σ2 →
      VisitPost states q σ σ2
  | 0, q, σ, σ2, _, _, _ => by
      intro h
      exact absurd h (by simp [tVisit])
  | fuel + 1, q, σ, σ2, hq, hqu, hI => by
      intro h
      rw [tVisit] at h
      obtain ⟨σm, hlist, h⟩ := Option.bind_eq_some.mp h
      have hnm : q ∉ σ.stack := tMark_notMemStack hI hq
      have hI1 : TInv states (tMark q σ) := tMark_inv hI hq hqu
      have hq1 : q ∈ (tMark q σ).stack := List.mem_cons_self q σ.stack
      have hlp := tVisitListAux_post states (tVisit M states actions fuel)
        (fun dst τ τ2 h1 h2 h3 h4 => tVisit_post M states actions fuel dst τ τ2 h1 h2 h3 h4)
        (tSuccs M states actions q) q (tMark q σ) σm
        (tSuccs_subset M states actions q) hq1 hI1 hlist
      have hIm : TInv states σm := hlp.inv
      have hidxq : σm.stIdx q = some σ.idx := by
        refine hlp.step.stIdxPres q σ.idx ?_
        show (if q = q then some σ.idx else σ.stIdx q) = some σ.idx
        rw [if_pos rfl]
      obtain ⟨ext, hext0⟩ := hlp.step.stackExt
      have hext : σm.stack = ext ++ q :: σ.stack := hext0
      have hndm : (ext ++ q :: σ.stack).Nodup := by
        have := hIm.stackNodup
        rw [hext] at this
        exact this
      have hqext : q ∉ ext := by
        intro hmem
        exact (List.nodup_append.mp hndm).2.2 hmem (List.mem_cons_self q _)
      have hstep : StepPost σ σm := (tMark_step hq).trans hlp.step
      have hlowPres : ∀ w, σ.stIdx w ≠ none → σm.stLow w = σ.stLow w := by
        intro w hvw
        have hwq : w ≠ q := by
          intro h2
          rw [h2] at hvw
          exact hvw hq
        have h1 : (tMark q σ).stIdx w ≠ none := by
          show (if w = q then some σ.idx else σ.stIdx w) ≠ none
          rw [if_neg hwq]
          exact hvw
        have h2 := hlp.lowPres w hwq h1
        rw [h2]
        show (if w = q then σ.idx else σ.stLow w) = σ.stLow w
        rw [if_neg hwq]
      have hlowB : ∀ B, StackBound σ B → B ≤ σm.stLow q := by
        intro B hB
        have h3 := hlp.lowBound B (tMark_bound hB hq hnm)
        have h4 : (tMark q σ).stLow q = σ.idx := by
          show (if q = q then σ.idx else σ.stLow q) = σ.idx
          rw [if_pos rfl]
        rw [h4, min_eq_right hB.1] at h3
        exact h3
      by_cases hbr : σm.stIdx q = some (σm.stLow q)
      · rw [if_pos hbr, hext] at h
        obtain ⟨hp1, hp2, hp3⟩ :=
          popLoop_spec q ext σ.stack σm.onStack [] hqext
        cases h
        refine ⟨⟨?_, ?_, ?_, hIm.visitedUniv, hIm.idxBound, hIm.lowLe⟩,
          ⟨⟨[], by dsimp only; rw [hp1]; simp⟩, ?_, hstep.stIdxPres,
            hstep.idxMono, hstep.freshGe⟩,
          hidxq, hlowPres, hlowB, Or.inl (by dsimp only; rw [hp1]),
          fun hemp => by dsimp only; rw [hp1, hemp]⟩
        · show ((popLoop q (ext ++ q :: σ.stack) σm.onStack []).1 ++
            (σm.sccs ++ [(popLoop q (ext ++ q :: σ.stack) σm.onStack []).2.2]).flatten).Nodup
          rw [hp1, hp2]
          have hKnd : ((ext ++ q :: σ.stack) ++ σm.sccs.flatten).Nodup := by
            have := hIm.bigNodup
            rw [hext] at this
            exact this
          refine (List.Perm.nodup_iff ?_).mpr hKnd
          rw [List.perm_iff_count]
          intro a
          simp only [List.count_append, List.flatten_append, List.flatten_cons,
            List.flatten_nil, List.append_nil, List.nil_append, List.count_cons,
            List.count_nil]
          omega
        · intro w
          dsimp only
          rw [hp3 w, hp1]
          by_cases hw : w ∈ ext ++ [q]
          · rw [if_pos hw]
            simp only [Bool.false_eq_true, false_iff]
            intro hmem
            rcases List.mem_append.mp hw with h1 | h1
            · exact (List.nodup_append.mp hndm).2.2 h1
                (List.mem_cons_of_mem q hmem)
            · rw [List.mem_singleton] at h1
              subst h1
              exact hnm hmem
          · rw [if_neg hw]
            rw [hIm.onStackIff w, hext]
            constructor
            · intro hmem
              rcases List.mem_append.mp hmem with h1 | h1
              · exact absurd (List.mem_append.mpr (Or.inl h1)) hw
              · rcases List.mem_cons.mp h1 with h2 | h2
                · exact absurd (List.mem_append.mpr (Or.inr (by rw [h2]; simp)))
                    hw
                · exact h2
            · intro hmem
              exact List.mem_append.mpr (Or.inr (List.mem_cons_of_mem q hmem))
        · intro w
          dsimp only
          rw [hp1, hp2]
          rw [← hIm.visitedIff w, hext]
          simp only [List.flatten_append, List.flatten_cons, List.flatten_nil,
            List.append_nil, List.nil_append, List.mem_append, List.mem_cons,
            List.mem_singleton]
          tauto
        · obtain ⟨more, hm⟩ := hstep.sccsExt
          exact ⟨more ++ [(popLoop q (ext ++ q :: σ.stack) σm.onStack []).2.2],
            by rw [hm, List.append_assoc]⟩
      · rw [if_neg hbr] at h
        cases h
        refine ⟨hIm, hstep, hidxq, hlowPres, hlowB, Or.inr ⟨ext, hext⟩, ?_⟩
        intro hemp
        exfalso
        apply hbr
        have hB : StackBound σ σ.idx := by
          refine ⟨le_refl _, ?_⟩
          intro w hw
          rw [hemp] at hw
          exact absurd hw (by simp)
        have h5 := hlowB σ.idx hB
        have h6 := hIm.lowLe q σ.idx hidxq
        rw [hidxq, Nat.le_antisymm h6 h5]

theorem tTopLoop_post (M : SolverMDP) (states : List Nat)
    (actions : Nat → List Nat) (fuel : Nat) :
    ∀ (l : List Nat) (σ σf : TarjanSt),
      (∀ s ∈ l, s ∈ states) → TInv states σ → σ.stack = [] →
      tTopLoop M states actions fuel l σ = some σf →
      TInv states σf ∧ σf.stack = [] ∧ (∀ s ∈ l, σf.stIdx s ≠ none) ∧
        (∀ w, σ.stIdx w ≠ none → σf.stIdx w ≠ none)
  | [], σ, σf, _, hI, hst => by
      intro h
      rw [tTopLoop] at h
      cases h
      exact ⟨hI, hst, fun s hs => absurd hs (by simp), fun w hw => hw⟩
  | s :: rest, σ, σf, hl, hI, hst => by
      intro h
      rw [tTopLoop] at h
      split at h
      · rename_i heq
        obtain ⟨σ2, hv, h⟩ := Option.bind_eq_some.mp h
        have hV := tVisit_post M states actions fuel s σ σ2 heq
          (hl s (by simp)) hI hv
        have ih := tTopLoop_post M states actions fuel rest σ2 σf
          (fun x hx => hl x (List.mem_cons_of_mem _ hx)) hV.inv
          (hV.emptyStack hst) h
        refine ⟨ih.1, ih.2.1, ?_, ?_⟩
        · intro x hx
          rcases List.mem_cons.mp hx with h1 | h1
          · subst h1
            refine ih.2.2.2 x ?_
            rw [hV.idxQ]
            simp
          · exact ih.2.2.1 x h1
        · intro w hw
          refine ih.2.2.2 w ?_
          cases hvo : σ.stIdx w with
          | none => exact absurd hvo hw
          | some u =>
              rw [hV.step.stIdxPres w u hvo]
              simp
      · rename_i d heq
        have ih := tTopLoop_post M states actions fuel rest σ σf
          (fun x hx => hl x (List.mem_cons_of_mem _ hx)) hI hst h
        refine ⟨ih.1, ih.2.1, ?_, ih.2.2.2⟩
        intro x hx
        rcases List.mem_cons.mp hx with h1 | h1
        · subst h1
          refine ih.2.2.2 x ?_
          rw [heq]
          simp
        · exact ih.2.2.1 x h1

/-- Claim C10: `tarjanSCCs` on a non-empty input set returns a list of
SCCs that partitions the input set — every input state appears in exactly
one returned SCC (the flattened output is duplicate-free and covers
exactly the input states), and no returned SCC contains a state outside
the input set; the empty input set violates the `assert len(states) > 0`
precondition, yielding no result. -/
theorem tarjanSCCs_partitions (M : SolverMDP) (fuel : Nat)
    (states : List Nat) (actions : Nat → List Nat) :
    (states = [] → tarjanSCCs M fuel states actions = none)
    ∧ ∀ out, tarjanSCCs M fuel states actions = some out →
        out.flatten.Nodup ∧ ∀ s, s ∈ out.flatten ↔ s ∈ states := by
  constructor
  · intro h
    rw [tarjanSCCs, if_pos h]
  · intro out h
    rw [tarjanSCCs] at h
    by_cases hs : states = []
    · rw [if_pos hs] at h
      exact absurd h (by simp)
    · rw [if_neg hs] at h
      obtain ⟨σf, htop, hout⟩ := Option.bind_eq_some.mp h
      have hinit : TInv states initTarjanSt := by
        refine ⟨by simp [initTarjanSt], ?_, ?_, ?_, ?_, ?_⟩
        · intro w
          simp [initTarjanSt]
        · intro w
          simp [initTarjanSt]
        · intro w
          simp [initTarjanSt]
        · intro w v
          simp [initTarjanSt]
        · intro w v
          simp [initTarjanSt]
      obtain ⟨hIf, hstf, hvis, _⟩ := tTopLoop_post M states actions fuel
        states initTarjanSt σf (fun s h2 => h2) hinit rfl htop
      have hout2 : out = σf.sccs := by
        cases hout
        rfl
      subst hout2
      constructor
      · have h3 := hIf.bigNodup
        rw [hstf] at h3
        simpa using h3
      · intro s
        constructor
        · intro hmem
          exact hIf.visitedUniv s ((hIf.visitedIff s).mp (Or.inr hmem))
        · intro hmem
          rcases (hIf.visitedIff s).mpr (hvis s hmem) with h1 | h1
          · rw [hstf] at h1
            exact absurd h1 (by simp)
          · exact h1

/-- Claim C10, witness. -/
theorem tarjanSCCs_partitions_witness :
    tarjanSCCs mdpChain 10 [0, 1] (fun _ => [0]) = some [[1], [0]]
    ∧ ([[1], [0]] : List (List Nat)).flatten.Nodup
    ∧ ((0 : Nat) ∈ ([[1], [0]] : List (List Nat)).flatten ↔ (0 : Nat) ∈ [0, 1]) :=
  ⟨by decide,
   ((tarjanSCCs_partitions mdpChain 10 [0, 1] (fun _ => [0])).2 [[1], [0]]
     (by decide)).1,
   ((tarjanSCCs_partitions mdpChain 10 [0, 1] (fun _ => [0])).2 [[1], [0]]
     (by decide)).2 0⟩

end PomdpsReveal
